import Mathlib

set_option maxRecDepth 1000000

/-! Verification of the mask-pair search of zemm/muhkeat (`main.go`).

Words are modelled as lists of runes (natural numbers).  The Go `uint64`
word masks become natural numbers kept below `2 ^ 64`, the `uint8` weights
become natural numbers reduced modulo `256` wherever the Go code could
observe the 8-bit width, and Go hash maps become association lists in a
fixed (but arbitrary) iteration order.  All definitions follow the Go
source; `findTopWeightAndPairsNoPrune` is the one definition written from
the specification text (the exhaustive search with the pruning step
removed), used for the refinement comparison. -/

/-- A word is a list of runes, mirroring Go `type Word []rune`. -/
abbrev Word := List Nat

/-- The grouping structure built by `makeWordSet` (Go `type WordSet struct`):
the word list, words grouped by mask, and masks grouped by weight.
Go's maps are modelled as association lists. -/
structure WordSet where
  words : List Word
  wordsByMasks : List (Nat × List Word)
  wordMasksPerWeight : List (Nat × List Nat)

/-- SWAR popcount from `main.go` (`func popcount`).  For arguments below
`2 ^ 64` every intermediate value agrees with the Go `uint64` computation
(no step can wrap), and the final `% 256` models the `uint8` conversion. -/
def popcount (wm : Nat) : Nat :=
  let mask1 := 6148914691236517205
  let mask2 := 3689348814741910323
  let mask4 := 1085102592571150095
  let x := wm
  let x := x - ((x >>> 1) &&& mask1)
  let x := (x &&& mask2) + ((x >>> 2) &&& mask2)
  let x := (x + (x >>> 4)) &&& mask4
  let x := x + (x >>> 8)
  let x := x + (x >>> 16)
  let x := x + (x >>> 32)
  x % 256

/-- Fuel-driven reference bit counter (structural recursion so that the
kernel can evaluate it). -/
def bitCountAux : Nat → Nat → Nat
  | 0, _ => 0
  | fuel + 1, n => if n = 0 then 0 else n % 2 + bitCountAux fuel (n / 2)

/-- Reference count of set bits in the binary representation of `n`. -/
def bitCount (n : Nat) : Nat := bitCountAux n n

/-- Mutable state of the double loop in `findTopWeightAndPairs`:
the running best weight, the list of best pairs, and the set of masks
already used as the outer mask (Go's `checkedMasks`). -/
structure SearchState where
  topWeight : Nat
  topPairs : List (Nat × Nat)
  checked : List Nat

/-- Body of the innermost loop of `findTopWeightAndPairs` once a pair
`(iMask, jMask)` is actually compared. -/
def evalPair (iMask jMask : Nat) (st : SearchState) : SearchState :=
  let pairWeight := popcount (iMask ||| jMask)
  let st1 :=
    if st.topWeight < pairWeight then
      { st with topWeight := pairWeight, topPairs := [] }
    else st
  if pairWeight = st1.topWeight then
    { st1 with topPairs := st1.topPairs ++ [(iMask, jMask)] }
  else st1

/-- Innermost loop step: masks already checked (used as an outer mask)
are skipped. -/
def innerMask (iMask : Nat) (st : SearchState) (jMask : Nat) : SearchState :=
  if jMask ∈ st.checked then st else evalPair iMask jMask st

/-- Inner weight-class loop step, including the Go pruning test
`iWeight + jWeight < topWeight` (8-bit addition). -/
def innerClass (iWeight iMask : Nat) (st : SearchState) (cls : Nat × List Nat) : SearchState :=
  if (iWeight + cls.1) % 256 < st.topWeight then st
  else cls.2.foldl (innerMask iMask) st

/-- Outer-mask step: mark `iMask` checked, then run the inner loops. -/
def outerMask (per : List (Nat × List Nat)) (iWeight : Nat) (st : SearchState) (iMask : Nat) :
    SearchState :=
  per.foldl (innerClass iWeight iMask) { st with checked := st.checked ++ [iMask] }

/-- Go `func (ws WordSet) findTopWeightAndPairs`. -/
def findTopWeightAndPairs (ws : WordSet) : Nat × List (Nat × Nat) :=
  let fin := ws.wordMasksPerWeight.foldl
    (fun st cls => cls.2.foldl (outerMask ws.wordMasksPerWeight cls.1) st)
    ⟨0, [], []⟩
  (fin.topWeight, fin.topPairs)

/-- Inner weight-class loop step with the pruning test removed. -/
def innerClassNoPrune (iMask : Nat) (st : SearchState) (cls : Nat × List Nat) : SearchState :=
  cls.2.foldl (innerMask iMask) st

/-- Outer-mask step of the prune-free search. -/
def outerMaskNoPrune (per : List (Nat × List Nat)) (st : SearchState) (iMask : Nat) :
    SearchState :=
  per.foldl (innerClassNoPrune iMask) { st with checked := st.checked ++ [iMask] }

/-- Modelled from the spec: the exhaustive variant of
`findTopWeightAndPairs` with the `iWeight + jWeight < topWeight` pruning
step removed, the reference point of the pruning-soundness property. -/
def findTopWeightAndPairsNoPrune (ws : WordSet) : Nat × List (Nat × Nat) :=
  let fin := ws.wordMasksPerWeight.foldl
    (fun st cls => cls.2.foldl (outerMaskNoPrune ws.wordMasksPerWeight) st)
    ⟨0, [], []⟩
  (fin.topWeight, fin.topPairs)

/-- Lookup in an association-list map; a missing key yields the Go zero
value (an empty slice). -/
def lookupGroup {α : Type} (groups : List (Nat × List α)) (k : Nat) : List α :=
  match groups.find? (fun p => p.1 == k) with
  | some p => p.2
  | none => []

/-- Go `func (ws WordSet) findWordPairsByMasks`: expand each winning mask
pair into the cartesian product of the two word groups. -/
def findWordPairsByMasks (ws : WordSet) (maskPairs : List (Nat × Nat)) : List (Word × Word) :=
  maskPairs.foldl (fun acc mp =>
    (lookupGroup ws.wordsByMasks mp.1).foldl (fun acc2 wa =>
      (lookupGroup ws.wordsByMasks mp.2).foldl (fun acc3 wb => acc3 ++ [(wa, wb)]) acc2) acc) []

/-- Go `func wordSetRunes`: all distinct runes of the word list (the Go
map iteration order is modelled as first-occurrence order). -/
def wordSetRunes (words : List Word) : List Nat :=
  words.foldl (fun acc w => w.foldl (fun acc2 r => if r ∈ acc2 then acc2 else acc2 ++ [r]) acc) []

/-- The rune-to-mask assignment built at the top of `makeWordSet`:
rune number `i` of the enumeration gets mask `1 << i`, a Go `uint64`
shift, hence the reduction modulo `2 ^ 64` (for `i ≥ 64` the Go result
is `0`). -/
def runeMaskMapOf (runes : List Nat) : List (Nat × Nat) :=
  runes.enum.map (fun p => (p.2, (1 <<< p.1) % 2 ^ 64))

/-- Association-list lookup with the Go zero value `0` for missing keys. -/
def lookupRuneMask (rmm : List (Nat × Nat)) (r : Nat) : Nat :=
  match rmm.find? (fun p => p.1 == r) with
  | some p => p.2
  | none => 0

/-- Go `func (word Word) makeWordMask`: OR together the mask of every
rune of the word. -/
def makeWordMask (word : Word) (rmm : List (Nat × Nat)) : Nat :=
  word.foldl (fun mask r => mask ||| lookupRuneMask rmm r) 0

/-- One `m[k] = append(m[k], v)` step on an association-list map,
creating the key on first use as the Go code does. -/
def addToGroup {α : Type} (groups : List (Nat × List α)) (k : Nat) (v : α) :
    List (Nat × List α) :=
  match groups with
  | [] => [(k, [v])]
  | g :: rest => if g.1 = k then (g.1, g.2 ++ [v]) :: rest else g :: addToGroup rest k v

/-- Group a list by a key function, as the two grouping loops of
`makeWordSet` do. -/
def groupByKey {α : Type} (f : α → Nat) (l : List α) : List (Nat × List α) :=
  l.foldl (fun acc v => addToGroup acc (f v) v) []

/-- Go `func makeWordSet`, with the rune enumeration order taken as a
parameter (Go iterates a map in unspecified order). -/
def makeWordSetR (runes : List Nat) (words : List Word) : WordSet :=
  let rmm := runeMaskMapOf runes
  let wbm := groupByKey (fun w => makeWordMask w rmm) words
  ⟨words, wbm, groupByKey popcount (wbm.map Prod.fst)⟩

/-- Go `func makeWordSet` with the model's concrete (first-occurrence)
rune enumeration. -/
def makeWordSet (words : List Word) : WordSet :=
  makeWordSetR (wordSetRunes words) words

/-- Token-processing core of Go `func ReadWordSetFromFile`: the scanner's
tokens are given as rune lists, `strings.ToLower` as a rune map, and the
whitelist as a rune list; the result is the deduplicated list of filtered
words (the word-set map in first-insertion order). -/
def readWordSetFromTokens (lower : Nat → Nat) (whitemap : List Nat)
    (tokens : List (List Nat)) : List Word :=
  tokens.foldl (fun acc tok =>
    if tok = [] then acc
    else
      let w := (tok.map lower).filter (fun r => decide (r ∈ whitemap))
      if w ∈ acc then acc else acc ++ [w]) []

/-- All masks of the weight-class index, in iteration order. -/
def masksList (ws : WordSet) : List Nat := (ws.wordMasksPerWeight.map Prod.snd).flatten

/-- Well-formedness of a `WordSet` as established by `makeWordSet`:
every mask sits in the weight class of its popcount and fits in 64 bits,
no mask occurs twice, and the weight-class index holds exactly the keys
of the mask-group index. -/
def WSInv (ws : WordSet) : Prop :=
  (∀ cls ∈ ws.wordMasksPerWeight, ∀ m ∈ cls.2, popcount m = cls.1 ∧ m < 2 ^ 64) ∧
  (masksList ws).Nodup ∧
  (ws.wordsByMasks.map Prod.fst).Perm (masksList ws)

/-- Flat reference step: fold over an explicit list of candidate mask
pairs, keeping the best weight and all pairs attaining it. -/
def step (s : Nat × List (Nat × Nat)) (pr : Nat × Nat) : Nat × List (Nat × Nat) :=
  let pw := popcount (pr.1 ||| pr.2)
  let s1 := if s.1 < pw then (pw, ([] : List (Nat × Nat))) else s
  if pw = s1.1 then (s1.1, s1.2 ++ [pr]) else s1

/-- Run the flat reference search over a pair list. -/
def runPairs (s : Nat × List (Nat × Nat)) (ps : List (Nat × Nat)) : Nat × List (Nat × Nat) :=
  ps.foldl step s

/-- All ordered representatives of unordered pairs of list positions,
first component strictly earlier in the list. -/
def allPairs : List Nat → List (Nat × Nat)
  | [] => []
  | a :: rest => (rest.map (fun b => (a, b))) ++ allPairs rest

/-- Maximum pair weight over a pair list, starting from `tw`. -/
def maxW (tw : Nat) (ps : List (Nat × Nat)) : Nat :=
  ps.foldl (fun a pr => max a (popcount (pr.1 ||| pr.2))) tw

/-- Eight base-256 digits packed into one number. -/
def N8 (b0 b1 b2 b3 b4 b5 b6 b7 : Nat) : Nat :=
  b0 + 256 * (b1 + 256 * (b2 + 256 * (b3 + 256 * (b4 + 256 * (b5 + 256 * (b6 + 256 * b7))))))

/-- Per-byte effect of the first SWAR step. -/
def pbHalf (b : Nat) : Nat := b - ((b / 2) &&& 85)

/-- Per-byte effect of the second SWAR step. -/
def pbQuarter (a : Nat) : Nat := (a &&& 51) + ((a / 4) &&& 51)

/-- Per-byte effect of the third SWAR step. -/
def pbNibble (a : Nat) : Nat := (a + a / 16) &&& 15

/-- Per-byte composition of the three SWAR reduction steps. -/
def pbByte (b : Nat) : Nat := pbNibble (pbQuarter (pbHalf b))

/-- The word "cat" of the end-to-end example, as character codes. -/
def catWord : Word := [99, 97, 116]

/-- The word "dog" of the end-to-end example. -/
def dogWord : Word := [100, 111, 103]

/-- The word "fish" of the end-to-end example. -/
def fishWord : Word := [102, 105, 115, 104]

/-- The corpus of the end-to-end example. -/
def cdfWords : List Word := [catWord, dogWord, fishWord]

/-- A corpus with 65 distinct runes `0..64`: the 65 single-rune words
followed by the two-rune word `[0, 64]`. -/
def overflowWords : List Word := (List.range 65).map (fun i => [i]) ++ [[0, 64]]

/-- Number of distinct characters (drawn from the rune enumeration)
covered jointly by two words: the bijection-independent quantity that a
mask-pair weight computes. -/
def jointWeight (runes : List Nat) (w1 w2 : Word) : Nat :=
  (runes.filter (fun c => decide (c ∈ w1 ∨ c ∈ w2))).length

/-- The association list `acc` groups the elements of `s` by the key
function `f`: keys are unique, a key occurs exactly when some element of
`s` maps to it, and each entry holds exactly the elements of `s` with
that key, in source order. -/
def GroupsOf {α : Type} (f : α → Nat) (s : List α) (acc : List (Nat × List α)) : Prop :=
  ((acc.map Prod.fst).Nodup ∧ (∀ k, k ∈ acc.map Prod.fst ↔ ∃ v ∈ s, f v = k)) ∧
  (∀ p ∈ acc, p.2 = s.filter (fun v => f v == p.1))

theorem sanity_popcount : popcount 967 = 7 ∧ popcount 0 = 0 ∧ popcount (2 ^ 64 - 1) = 64 := by
  decide

/-! ### Bit-level toolkit: base-256 digit reasoning for the SWAR popcount -/

theorem testBit_add_mul (a x i : Nat) (ha : a < 256) :
    (a + 256 * x).testBit i = if i < 8 then a.testBit i else x.testBit (i - 8) := by
  rcases lt_or_ge i 8 with h | h
  · rw [if_pos h]
    simp only [Nat.testBit_to_div_mod, decide_eq_decide]
    interval_cases i <;> omega
  · rw [if_neg (not_lt.mpr h)]
    have h2 : (2 : Nat) ^ i = 256 * 2 ^ (i - 8) := by
      rw [show (256 : Nat) = 2 ^ 8 by norm_num, ← pow_add]
      congr 1
      omega
    simp only [Nat.testBit_to_div_mod, decide_eq_decide, h2, ← Nat.div_div_eq_div_mul]
    have h3 : (a + 256 * x) / 256 = x := by omega
    rw [h3]

theorem land_add_mul (a c x y : Nat) (ha : a < 256) (hc : c < 256) :
    (a + 256 * x) &&& (c + 256 * y) = (a &&& c) + 256 * (x &&& y) := by
  apply Nat.eq_of_testBit_eq
  intro i
  have hac : a &&& c < 256 := lt_of_le_of_lt Nat.and_le_left ha
  rw [Nat.testBit_land, testBit_add_mul a x i ha, testBit_add_mul c y i hc,
    testBit_add_mul (a &&& c) (x &&& y) i hac]
  rcases lt_or_ge i 8 with h | h
  · simp [h, Nat.testBit_land]
  · simp [not_lt.mpr h, Nat.testBit_land]

theorem land8 {a0 a1 a2 a3 a4 a5 a6 a7 c0 c1 c2 c3 c4 c5 c6 c7 : Nat}
    (ha0 : a0 < 256) (ha1 : a1 < 256) (ha2 : a2 < 256) (ha3 : a3 < 256)
    (ha4 : a4 < 256) (ha5 : a5 < 256) (ha6 : a6 < 256)
    (hc0 : c0 < 256) (hc1 : c1 < 256) (hc2 : c2 < 256) (hc3 : c3 < 256)
    (hc4 : c4 < 256) (hc5 : c5 < 256) (hc6 : c6 < 256) :
    N8 a0 a1 a2 a3 a4 a5 a6 a7 &&& N8 c0 c1 c2 c3 c4 c5 c6 c7
      = N8 (a0 &&& c0) (a1 &&& c1) (a2 &&& c2) (a3 &&& c3) (a4 &&& c4) (a5 &&& c5)
          (a6 &&& c6) (a7 &&& c7) := by
  simp only [N8]
  rw [land_add_mul _ _ _ _ ha0 hc0, land_add_mul _ _ _ _ ha1 hc1, land_add_mul _ _ _ _ ha2 hc2,
    land_add_mul _ _ _ _ ha3 hc3, land_add_mul _ _ _ _ ha4 hc4, land_add_mul _ _ _ _ ha5 hc5,
    land_add_mul _ _ _ _ ha6 hc6]

theorem pb85 : ∀ x < 128, ∀ t < 2, ((x + 128 * t) &&& 85) = x &&& 85 := by decide

theorem pb51 : ∀ x < 64, ∀ t < 4, ((x + 64 * t) &&& 51) = x &&& 51 := by decide

theorem pb15 : ∀ x < 256, ∀ t < 16, ((x + 16 * t) &&& 15) = x &&& 15 := by decide

theorem pbFacts : ∀ b < 256, pbHalf b < 256 ∧ pbQuarter (pbHalf b) < 256 ∧
    pbQuarter (pbHalf b) ≤ 104 ∧ pbQuarter (pbHalf b) % 16 ≤ 4 ∧
    pbByte b = bitCount b ∧ pbByte b ≤ 8 := by decide

theorem shr1_N8 (b0 b1 b2 b3 b4 b5 b6 b7 : Nat) :
    N8 b0 b1 b2 b3 b4 b5 b6 b7 >>> 1
      = N8 (b0 / 2 + 128 * (b1 % 2)) (b1 / 2 + 128 * (b2 % 2)) (b2 / 2 + 128 * (b3 % 2))
          (b3 / 2 + 128 * (b4 % 2)) (b4 / 2 + 128 * (b5 % 2)) (b5 / 2 + 128 * (b6 % 2))
          (b6 / 2 + 128 * (b7 % 2)) (b7 / 2) := by
  simp only [N8, Nat.shiftRight_eq_div_pow, pow_one]
  omega

theorem shr2_N8 (b0 b1 b2 b3 b4 b5 b6 b7 : Nat) :
    N8 b0 b1 b2 b3 b4 b5 b6 b7 >>> 2
      = N8 (b0 / 4 + 64 * (b1 % 4)) (b1 / 4 + 64 * (b2 % 4)) (b2 / 4 + 64 * (b3 % 4))
          (b3 / 4 + 64 * (b4 % 4)) (b4 / 4 + 64 * (b5 % 4)) (b5 / 4 + 64 * (b6 % 4))
          (b6 / 4 + 64 * (b7 % 4)) (b7 / 4) := by
  have h : N8 b0 b1 b2 b3 b4 b5 b6 b7 >>> 2 = N8 b0 b1 b2 b3 b4 b5 b6 b7 / 4 := by
    rw [Nat.shiftRight_eq_div_pow]
  rw [h]
  simp only [N8]
  omega

theorem shr4_N8 (b0 b1 b2 b3 b4 b5 b6 b7 : Nat) :
    N8 b0 b1 b2 b3 b4 b5 b6 b7 >>> 4
      = N8 (b0 / 16 + 16 * (b1 % 16)) (b1 / 16 + 16 * (b2 % 16)) (b2 / 16 + 16 * (b3 % 16))
          (b3 / 16 + 16 * (b4 % 16)) (b4 / 16 + 16 * (b5 % 16)) (b5 / 16 + 16 * (b6 % 16))
          (b6 / 16 + 16 * (b7 % 16)) (b7 / 16) := by
  have h : N8 b0 b1 b2 b3 b4 b5 b6 b7 >>> 4 = N8 b0 b1 b2 b3 b4 b5 b6 b7 / 16 := by
    rw [Nat.shiftRight_eq_div_pow]
  rw [h]
  simp only [N8]
  omega

theorem add_shr8_N8 (b0 b1 b2 b3 b4 b5 b6 b7 : Nat) (h0 : b0 < 256) :
    N8 b0 b1 b2 b3 b4 b5 b6 b7 + (N8 b0 b1 b2 b3 b4 b5 b6 b7 >>> 8)
      = N8 (b0 + b1) (b1 + b2) (b2 + b3) (b3 + b4) (b4 + b5) (b5 + b6) (b6 + b7) b7 := by
  have h : N8 b0 b1 b2 b3 b4 b5 b6 b7 >>> 8 = N8 b0 b1 b2 b3 b4 b5 b6 b7 / 256 := by
    rw [Nat.shiftRight_eq_div_pow]
  rw [h]
  simp only [N8]
  omega

theorem add_shr16_N8 (b0 b1 b2 b3 b4 b5 b6 b7 : Nat) (h0 : b0 < 256) (h1 : b1 < 256) :
    N8 b0 b1 b2 b3 b4 b5 b6 b7 + (N8 b0 b1 b2 b3 b4 b5 b6 b7 >>> 16)
      = N8 (b0 + b2) (b1 + b3) (b2 + b4) (b3 + b5) (b4 + b6) (b5 + b7) b6 b7 := by
  have h : N8 b0 b1 b2 b3 b4 b5 b6 b7 >>> 16 = N8 b0 b1 b2 b3 b4 b5 b6 b7 / 65536 := by
    rw [Nat.shiftRight_eq_div_pow]
  rw [h]
  simp only [N8]
  omega

theorem add_shr32_N8 (b0 b1 b2 b3 b4 b5 b6 b7 : Nat) (h0 : b0 < 256) (h1 : b1 < 256)
    (h2 : b2 < 256) (h3 : b3 < 256) :
    N8 b0 b1 b2 b3 b4 b5 b6 b7 + (N8 b0 b1 b2 b3 b4 b5 b6 b7 >>> 32)
      = N8 (b0 + b4) (b1 + b5) (b2 + b6) (b3 + b7) b4 b5 b6 b7 := by
  have h : N8 b0 b1 b2 b3 b4 b5 b6 b7 >>> 32 = N8 b0 b1 b2 b3 b4 b5 b6 b7 / 4294967296 := by
    rw [Nat.shiftRight_eq_div_pow]
  rw [h]
  simp only [N8]
  omega

theorem mod256_N8 (b0 b1 b2 b3 b4 b5 b6 b7 : Nat) (h0 : b0 < 256) :
    N8 b0 b1 b2 b3 b4 b5 b6 b7 % 256 = b0 := by
  simp only [N8]
  omega

theorem stage1 (b0 b1 b2 b3 b4 b5 b6 b7 : Nat)
    (h0 : b0 < 256) (h1 : b1 < 256) (h2 : b2 < 256) (h3 : b3 < 256)
    (h4 : b4 < 256) (h5 : b5 < 256) (h6 : b6 < 256) (h7 : b7 < 256) :
    N8 b0 b1 b2 b3 b4 b5 b6 b7 - ((N8 b0 b1 b2 b3 b4 b5 b6 b7 >>> 1) &&& 6148914691236517205)
      = N8 (pbHalf b0) (pbHalf b1) (pbHalf b2) (pbHalf b3) (pbHalf b4) (pbHalf b5) (pbHalf b6)
          (pbHalf b7) := by
  have hmask : (6148914691236517205 : Nat) = N8 85 85 85 85 85 85 85 85 := by decide
  rw [shr1_N8, hmask]
  have hland : N8 (b0 / 2 + 128 * (b1 % 2)) (b1 / 2 + 128 * (b2 % 2)) (b2 / 2 + 128 * (b3 % 2))
      (b3 / 2 + 128 * (b4 % 2)) (b4 / 2 + 128 * (b5 % 2)) (b5 / 2 + 128 * (b6 % 2))
      (b6 / 2 + 128 * (b7 % 2)) (b7 / 2) &&& N8 85 85 85 85 85 85 85 85
      = N8 ((b0 / 2 + 128 * (b1 % 2)) &&& 85) ((b1 / 2 + 128 * (b2 % 2)) &&& 85)
          ((b2 / 2 + 128 * (b3 % 2)) &&& 85) ((b3 / 2 + 128 * (b4 % 2)) &&& 85)
          ((b4 / 2 + 128 * (b5 % 2)) &&& 85) ((b5 / 2 + 128 * (b6 % 2)) &&& 85)
          ((b6 / 2 + 128 * (b7 % 2)) &&& 85) ((b7 / 2) &&& 85) := by
    apply land8 <;> omega
  rw [hland]
  have p0 : (b0 / 2 + 128 * (b1 % 2)) &&& 85 = (b0 / 2) &&& 85 := by
    exact pb85 (b0 / 2) (by omega) (b1 % 2) (by omega)
  have p1 : (b1 / 2 + 128 * (b2 % 2)) &&& 85 = (b1 / 2) &&& 85 := by
    exact pb85 (b1 / 2) (by omega) (b2 % 2) (by omega)
  have p2 : (b2 / 2 + 128 * (b3 % 2)) &&& 85 = (b2 / 2) &&& 85 := by
    exact pb85 (b2 / 2) (by omega) (b3 % 2) (by omega)
  have p3 : (b3 / 2 + 128 * (b4 % 2)) &&& 85 = (b3 / 2) &&& 85 := by
    exact pb85 (b3 / 2) (by omega) (b4 % 2) (by omega)
  have p4 : (b4 / 2 + 128 * (b5 % 2)) &&& 85 = (b4 / 2) &&& 85 := by
    exact pb85 (b4 / 2) (by omega) (b5 % 2) (by omega)
  have p5 : (b5 / 2 + 128 * (b6 % 2)) &&& 85 = (b5 / 2) &&& 85 := by
    exact pb85 (b5 / 2) (by omega) (b6 % 2) (by omega)
  have p6 : (b6 / 2 + 128 * (b7 % 2)) &&& 85 = (b6 / 2) &&& 85 := by
    exact pb85 (b6 / 2) (by omega) (b7 % 2) (by omega)
  rw [p0, p1, p2, p3, p4, p5, p6]
  have t0 : (b0 / 2) &&& 85 ≤ b0 := le_trans Nat.and_le_left (by omega)
  have t1 : (b1 / 2) &&& 85 ≤ b1 := le_trans Nat.and_le_left (by omega)
  have t2 : (b2 / 2) &&& 85 ≤ b2 := le_trans Nat.and_le_left (by omega)
  have t3 : (b3 / 2) &&& 85 ≤ b3 := le_trans Nat.and_le_left (by omega)
  have t4 : (b4 / 2) &&& 85 ≤ b4 := le_trans Nat.and_le_left (by omega)
  have t5 : (b5 / 2) &&& 85 ≤ b5 := le_trans Nat.and_le_left (by omega)
  have t6 : (b6 / 2) &&& 85 ≤ b6 := le_trans Nat.and_le_left (by omega)
  have t7 : (b7 / 2) &&& 85 ≤ b7 := le_trans Nat.and_le_left (by omega)
  simp only [pbHalf, N8]
  omega

theorem stage2 (a0 a1 a2 a3 a4 a5 a6 a7 : Nat)
    (h0 : a0 < 256) (h1 : a1 < 256) (h2 : a2 < 256) (h3 : a3 < 256)
    (h4 : a4 < 256) (h5 : a5 < 256) (h6 : a6 < 256) (h7 : a7 < 256) :
    (N8 a0 a1 a2 a3 a4 a5 a6 a7 &&& 3689348814741910323)
      + ((N8 a0 a1 a2 a3 a4 a5 a6 a7 >>> 2) &&& 3689348814741910323)
      = N8 (pbQuarter a0) (pbQuarter a1) (pbQuarter a2) (pbQuarter a3) (pbQuarter a4)
          (pbQuarter a5) (pbQuarter a6) (pbQuarter a7) := by
  have hmask : (3689348814741910323 : Nat) = N8 51 51 51 51 51 51 51 51 := by decide
  rw [shr2_N8, hmask]
  have hland1 : N8 a0 a1 a2 a3 a4 a5 a6 a7 &&& N8 51 51 51 51 51 51 51 51
      = N8 (a0 &&& 51) (a1 &&& 51) (a2 &&& 51) (a3 &&& 51) (a4 &&& 51) (a5 &&& 51) (a6 &&& 51)
          (a7 &&& 51) := by
    apply land8 <;> omega
  have hland2 : N8 (a0 / 4 + 64 * (a1 % 4)) (a1 / 4 + 64 * (a2 % 4)) (a2 / 4 + 64 * (a3 % 4))
      (a3 / 4 + 64 * (a4 % 4)) (a4 / 4 + 64 * (a5 % 4)) (a5 / 4 + 64 * (a6 % 4))
      (a6 / 4 + 64 * (a7 % 4)) (a7 / 4) &&& N8 51 51 51 51 51 51 51 51
      = N8 ((a0 / 4 + 64 * (a1 % 4)) &&& 51) ((a1 / 4 + 64 * (a2 % 4)) &&& 51)
          ((a2 / 4 + 64 * (a3 % 4)) &&& 51) ((a3 / 4 + 64 * (a4 % 4)) &&& 51)
          ((a4 / 4 + 64 * (a5 % 4)) &&& 51) ((a5 / 4 + 64 * (a6 % 4)) &&& 51)
          ((a6 / 4 + 64 * (a7 % 4)) &&& 51) ((a7 / 4) &&& 51) := by
    apply land8 <;> omega
  rw [hland1, hland2]
  have p0 : (a0 / 4 + 64 * (a1 % 4)) &&& 51 = (a0 / 4) &&& 51 := by
    exact pb51 (a0 / 4) (by omega) (a1 % 4) (by omega)
  have p1 : (a1 / 4 + 64 * (a2 % 4)) &&& 51 = (a1 / 4) &&& 51 := by
    exact pb51 (a1 / 4) (by omega) (a2 % 4) (by omega)
  have p2 : (a2 / 4 + 64 * (a3 % 4)) &&& 51 = (a2 / 4) &&& 51 := by
    exact pb51 (a2 / 4) (by omega) (a3 % 4) (by omega)
  have p3 : (a3 / 4 + 64 * (a4 % 4)) &&& 51 = (a3 / 4) &&& 51 := by
    exact pb51 (a3 / 4) (by omega) (a4 % 4) (by omega)
  have p4 : (a4 / 4 + 64 * (a5 % 4)) &&& 51 = (a4 / 4) &&& 51 := by
    exact pb51 (a4 / 4) (by omega) (a5 % 4) (by omega)
  have p5 : (a5 / 4 + 64 * (a6 % 4)) &&& 51 = (a5 / 4) &&& 51 := by
    exact pb51 (a5 / 4) (by omega) (a6 % 4) (by omega)
  have p6 : (a6 / 4 + 64 * (a7 % 4)) &&& 51 = (a6 / 4) &&& 51 := by
    exact pb51 (a6 / 4) (by omega) (a7 % 4) (by omega)
  rw [p0, p1, p2, p3, p4, p5, p6]
  simp only [pbQuarter, N8]
  ring

theorem stage3 (a0 a1 a2 a3 a4 a5 a6 a7 : Nat)
    (h0 : a0 ≤ 104) (h1 : a1 ≤ 104) (h2 : a2 ≤ 104) (h3 : a3 ≤ 104)
    (h4 : a4 ≤ 104) (h5 : a5 ≤ 104) (h6 : a6 ≤ 104) (h7 : a7 ≤ 104)
    (m1 : a1 % 16 ≤ 4) (m2 : a2 % 16 ≤ 4) (m3 : a3 % 16 ≤ 4) (m4 : a4 % 16 ≤ 4)
    (m5 : a5 % 16 ≤ 4) (m6 : a6 % 16 ≤ 4) (m7 : a7 % 16 ≤ 4) :
    (N8 a0 a1 a2 a3 a4 a5 a6 a7 + (N8 a0 a1 a2 a3 a4 a5 a6 a7 >>> 4)) &&& 1085102592571150095
      = N8 (pbNibble a0) (pbNibble a1) (pbNibble a2) (pbNibble a3) (pbNibble a4) (pbNibble a5)
          (pbNibble a6) (pbNibble a7) := by
  have hmask : (1085102592571150095 : Nat) = N8 15 15 15 15 15 15 15 15 := by decide
  have hsum : N8 a0 a1 a2 a3 a4 a5 a6 a7 + (N8 a0 a1 a2 a3 a4 a5 a6 a7 >>> 4)
      = N8 (a0 + a0 / 16 + 16 * (a1 % 16)) (a1 + a1 / 16 + 16 * (a2 % 16))
          (a2 + a2 / 16 + 16 * (a3 % 16)) (a3 + a3 / 16 + 16 * (a4 % 16))
          (a4 + a4 / 16 + 16 * (a5 % 16)) (a5 + a5 / 16 + 16 * (a6 % 16))
          (a6 + a6 / 16 + 16 * (a7 % 16)) (a7 + a7 / 16) := by
    rw [shr4_N8]
    simp only [N8]
    ring
  rw [hsum, hmask]
  have hland : N8 (a0 + a0 / 16 + 16 * (a1 % 16)) (a1 + a1 / 16 + 16 * (a2 % 16))
      (a2 + a2 / 16 + 16 * (a3 % 16)) (a3 + a3 / 16 + 16 * (a4 % 16))
      (a4 + a4 / 16 + 16 * (a5 % 16)) (a5 + a5 / 16 + 16 * (a6 % 16))
      (a6 + a6 / 16 + 16 * (a7 % 16)) (a7 + a7 / 16) &&& N8 15 15 15 15 15 15 15 15
      = N8 ((a0 + a0 / 16 + 16 * (a1 % 16)) &&& 15) ((a1 + a1 / 16 + 16 * (a2 % 16)) &&& 15)
          ((a2 + a2 / 16 + 16 * (a3 % 16)) &&& 15) ((a3 + a3 / 16 + 16 * (a4 % 16)) &&& 15)
          ((a4 + a4 / 16 + 16 * (a5 % 16)) &&& 15) ((a5 + a5 / 16 + 16 * (a6 % 16)) &&& 15)
          ((a6 + a6 / 16 + 16 * (a7 % 16)) &&& 15) ((a7 + a7 / 16) &&& 15) := by
    apply land8 <;> omega
  rw [hland]
  have p0 : (a0 + a0 / 16 + 16 * (a1 % 16)) &&& 15 = (a0 + a0 / 16) &&& 15 := by
    exact pb15 (a0 + a0 / 16) (by omega) (a1 % 16) (by omega)
  have p1 : (a1 + a1 / 16 + 16 * (a2 % 16)) &&& 15 = (a1 + a1 / 16) &&& 15 := by
    exact pb15 (a1 + a1 / 16) (by omega) (a2 % 16) (by omega)
  have p2 : (a2 + a2 / 16 + 16 * (a3 % 16)) &&& 15 = (a2 + a2 / 16) &&& 15 := by
    exact pb15 (a2 + a2 / 16) (by omega) (a3 % 16) (by omega)
  have p3 : (a3 + a3 / 16 + 16 * (a4 % 16)) &&& 15 = (a3 + a3 / 16) &&& 15 := by
    exact pb15 (a3 + a3 / 16) (by omega) (a4 % 16) (by omega)
  have p4 : (a4 + a4 / 16 + 16 * (a5 % 16)) &&& 15 = (a4 + a4 / 16) &&& 15 := by
    exact pb15 (a4 + a4 / 16) (by omega) (a5 % 16) (by omega)
  have p5 : (a5 + a5 / 16 + 16 * (a6 % 16)) &&& 15 = (a5 + a5 / 16) &&& 15 := by
    exact pb15 (a5 + a5 / 16) (by omega) (a6 % 16) (by omega)
  have p6 : (a6 + a6 / 16 + 16 * (a7 % 16)) &&& 15 = (a6 + a6 / 16) &&& 15 := by
    exact pb15 (a6 + a6 / 16) (by omega) (a7 % 16) (by omega)
  rw [p0, p1, p2, p3, p4, p5, p6]
  simp only [pbNibble]

theorem stage4 (c0 c1 c2 c3 c4 c5 c6 c7 : Nat)
    (h0 : c0 ≤ 8) (h1 : c1 ≤ 8) (h2 : c2 ≤ 8) (h3 : c3 ≤ 8)
    (h4 : c4 ≤ 8) (h5 : c5 ≤ 8) (h6 : c6 ≤ 8) (h7 : c7 ≤ 8) :
    (((N8 c0 c1 c2 c3 c4 c5 c6 c7 + (N8 c0 c1 c2 c3 c4 c5 c6 c7 >>> 8))
      + ((N8 c0 c1 c2 c3 c4 c5 c6 c7 + (N8 c0 c1 c2 c3 c4 c5 c6 c7 >>> 8)) >>> 16))
      + (((N8 c0 c1 c2 c3 c4 c5 c6 c7 + (N8 c0 c1 c2 c3 c4 c5 c6 c7 >>> 8))
          + ((N8 c0 c1 c2 c3 c4 c5 c6 c7 + (N8 c0 c1 c2 c3 c4 c5 c6 c7 >>> 8)) >>> 16)) >>> 32))
      % 256
      = c0 + c1 + c2 + c3 + c4 + c5 + c6 + c7 := by
  rw [add_shr8_N8 c0 c1 c2 c3 c4 c5 c6 c7 (by omega)]
  rw [add_shr16_N8 (c0 + c1) (c1 + c2) (c2 + c3) (c3 + c4) (c4 + c5) (c5 + c6) (c6 + c7) c7
    (by omega) (by omega)]
  rw [add_shr32_N8 (c0 + c1 + (c2 + c3)) (c1 + c2 + (c3 + c4)) (c2 + c3 + (c4 + c5))
    (c3 + c4 + (c5 + c6)) (c4 + c5 + (c6 + c7)) (c5 + c6 + c7) (c6 + c7) c7
    (by omega) (by omega) (by omega) (by omega)]
  rw [mod256_N8 _ _ _ _ _ _ _ _ (by omega)]
  ring

theorem bitCountAux_mono : ∀ (f1 f2 n : Nat), n ≤ f1 → n ≤ f2 → bitCountAux f1 n = bitCountAux f2 n := by
  intro f1
  induction f1 with
  | zero =>
    intro f2 n hn1 _
    have hn : n = 0 := by omega
    subst hn
    cases f2 <;> simp [bitCountAux]
  | succ f1 ih =>
    intro f2 n hn1 hn2
    cases f2 with
    | zero =>
      have hn : n = 0 := by omega
      subst hn
      simp [bitCountAux]
    | succ f2 =>
      by_cases h0 : n = 0
      · subst h0; simp [bitCountAux]
      · simp only [bitCountAux, if_neg h0]
        rw [ih f2 (n / 2) (by omega) (by omega)]

theorem bitCount_zero : bitCount 0 = 0 := rfl

theorem bitCount_unfold (n : Nat) : bitCount n = if n = 0 then 0 else n % 2 + bitCount (n / 2) := by
  by_cases h0 : n = 0
  · subst h0; simp [bitCount_zero]
  · rw [if_neg h0]
    cases n with
    | zero => exact absurd rfl h0
    | succ m =>
      show bitCountAux (m + 1) (m + 1) = (m + 1) % 2 + bitCount ((m + 1) / 2)
      simp only [bitCountAux, if_neg h0]
      rw [bitCountAux_mono m ((m + 1) / 2) ((m + 1) / 2) (by omega) (le_refl _)]
      rfl

theorem bitCount_add_mul : ∀ (k a x : Nat), a < 2 ^ k → bitCount (a + 2 ^ k * x) = bitCount a + bitCount x := by
  intro k
  induction k with
  | zero =>
    intro a x ha
    rw [pow_zero] at ha ⊢
    have h : a = 0 := by omega
    subst h
    simp [bitCount_zero]
  | succ k ih =>
    intro a x ha
    by_cases hx : a + 2 ^ (k + 1) * x = 0
    · have hpos : 0 < 2 ^ (k + 1) := pow_pos (by omega) _
      have ha0 : a = 0 := by omega
      have hmul : 2 ^ (k + 1) * x = 0 := by omega
      have hx0 : x = 0 := by
        rcases Nat.mul_eq_zero.mp hmul with h | h
        · omega
        · exact h
      subst ha0; subst hx0
      simp [bitCount_zero]
    · rw [bitCount_unfold (a + 2 ^ (k + 1) * x), if_neg hx]
      have hrw : 2 ^ (k + 1) * x = 2 * (2 ^ k * x) := by ring
      have h2 : (a + 2 ^ (k + 1) * x) / 2 = a / 2 + 2 ^ k * x := by rw [hrw]; omega
      have h3 : (a + 2 ^ (k + 1) * x) % 2 = a % 2 := by rw [hrw]; omega
      have ha2 : a / 2 < 2 ^ k := by
        rw [pow_succ] at ha; omega
      rw [h2, h3, ih (a / 2) x ha2, bitCount_unfold a]
      by_cases ha0 : a = 0
      · subst ha0; simp [bitCount_zero]
      · rw [if_neg ha0]; ring

theorem bitCount_N8 (b0 b1 b2 b3 b4 b5 b6 b7 : Nat)
    (h0 : b0 < 256) (h1 : b1 < 256) (h2 : b2 < 256) (h3 : b3 < 256)
    (h4 : b4 < 256) (h5 : b5 < 256) (h6 : b6 < 256) :
    bitCount (N8 b0 b1 b2 b3 b4 b5 b6 b7)
      = bitCount b0 + bitCount b1 + bitCount b2 + bitCount b3 + bitCount b4 + bitCount b5
        + bitCount b6 + bitCount b7 := by
  have e : (256 : Nat) = 2 ^ 8 := by norm_num
  simp only [N8, e]
  rw [bitCount_add_mul 8 b0 _ (e ▸ h0), bitCount_add_mul 8 b1 _ (e ▸ h1),
    bitCount_add_mul 8 b2 _ (e ▸ h2), bitCount_add_mul 8 b3 _ (e ▸ h3),
    bitCount_add_mul 8 b4 _ (e ▸ h4), bitCount_add_mul 8 b5 _ (e ▸ h5),
    bitCount_add_mul 8 b6 _ (e ▸ h6)]
  ring

theorem popcount_eq_bitCount {m : Nat} (hm : m < 2 ^ 64) : popcount m = bitCount m := by
  obtain ⟨b0, b1, b2, b3, b4, b5, b6, b7, hm8, h0, h1, h2, h3, h4, h5, h6, h7⟩ :
      ∃ b0 b1 b2 b3 b4 b5 b6 b7, m = N8 b0 b1 b2 b3 b4 b5 b6 b7 ∧ b0 < 256 ∧ b1 < 256 ∧
        b2 < 256 ∧ b3 < 256 ∧ b4 < 256 ∧ b5 < 256 ∧ b6 < 256 ∧ b7 < 256 :=
    ⟨m % 256, m / 256 % 256, m / 65536 % 256, m / 16777216 % 256, m / 4294967296 % 256,
      m / 1099511627776 % 256, m / 281474976710656 % 256, m / 72057594037927936,
      by simp only [N8]; omega, by omega, by omega, by omega, by omega, by omega, by omega,
      by omega, by omega⟩
  subst hm8
  simp only [popcount]
  rw [stage1 b0 b1 b2 b3 b4 b5 b6 b7 h0 h1 h2 h3 h4 h5 h6 h7]
  rw [stage2 (pbHalf b0) (pbHalf b1) (pbHalf b2) (pbHalf b3) (pbHalf b4) (pbHalf b5) (pbHalf b6)
    (pbHalf b7) (pbFacts b0 h0).1 (pbFacts b1 h1).1 (pbFacts b2 h2).1 (pbFacts b3 h3).1
    (pbFacts b4 h4).1 (pbFacts b5 h5).1 (pbFacts b6 h6).1 (pbFacts b7 h7).1]
  rw [stage3 (pbQuarter (pbHalf b0)) (pbQuarter (pbHalf b1)) (pbQuarter (pbHalf b2))
    (pbQuarter (pbHalf b3)) (pbQuarter (pbHalf b4)) (pbQuarter (pbHalf b5))
    (pbQuarter (pbHalf b6)) (pbQuarter (pbHalf b7))
    (pbFacts b0 h0).2.2.1 (pbFacts b1 h1).2.2.1 (pbFacts b2 h2).2.2.1 (pbFacts b3 h3).2.2.1
    (pbFacts b4 h4).2.2.1 (pbFacts b5 h5).2.2.1 (pbFacts b6 h6).2.2.1 (pbFacts b7 h7).2.2.1
    (pbFacts b1 h1).2.2.2.1 (pbFacts b2 h2).2.2.2.1 (pbFacts b3 h3).2.2.2.1
    (pbFacts b4 h4).2.2.2.1 (pbFacts b5 h5).2.2.2.1 (pbFacts b6 h6).2.2.2.1
    (pbFacts b7 h7).2.2.2.1]
  have hpb : ∀ b : Nat, pbNibble (pbQuarter (pbHalf b)) = pbByte b := fun _ => rfl
  simp only [hpb]
  rw [stage4 (pbByte b0) (pbByte b1) (pbByte b2) (pbByte b3) (pbByte b4) (pbByte b5) (pbByte b6)
    (pbByte b7) (pbFacts b0 h0).2.2.2.2.2 (pbFacts b1 h1).2.2.2.2.2 (pbFacts b2 h2).2.2.2.2.2
    (pbFacts b3 h3).2.2.2.2.2 (pbFacts b4 h4).2.2.2.2.2 (pbFacts b5 h5).2.2.2.2.2
    (pbFacts b6 h6).2.2.2.2.2 (pbFacts b7 h7).2.2.2.2.2]
  rw [bitCount_N8 b0 b1 b2 b3 b4 b5 b6 b7 h0 h1 h2 h3 h4 h5 h6]
  rw [(pbFacts b0 h0).2.2.2.2.1, (pbFacts b1 h1).2.2.2.2.1, (pbFacts b2 h2).2.2.2.2.1,
    (pbFacts b3 h3).2.2.2.2.1, (pbFacts b4 h4).2.2.2.2.1, (pbFacts b5 h5).2.2.2.2.1,
    (pbFacts b6 h6).2.2.2.2.1, (pbFacts b7 h7).2.2.2.2.1]

theorem bitCount_eq_countP : ∀ (k m : Nat), m < 2 ^ k →
    bitCount m = (List.range k).countP (fun i => m.testBit i) := by
  intro k
  induction k with
  | zero =>
    intro m hm
    rw [pow_zero] at hm
    have h : m = 0 := by omega
    subst h
    simp [bitCount_zero]
  | succ k ih =>
    intro m hm
    rw [bitCount_unfold]
    by_cases h0 : m = 0
    · subst h0
      simp [Nat.zero_testBit]
    · rw [if_neg h0, List.range_succ_eq_map, List.countP_cons, List.countP_map]
      have htail : List.countP ((fun i => m.testBit i) ∘ Nat.succ) (List.range k)
          = List.countP (fun i => (m / 2).testBit i) (List.range k) := by
        apply List.countP_congr
        intro i _
        simp [Function.comp, Nat.testBit_succ]
      have hm2 : m / 2 < 2 ^ k := by
        rw [pow_succ] at hm; omega
      rw [htail, ← ih (m / 2) hm2, Nat.testBit_zero]
      rcases Nat.mod_two_eq_zero_or_one m with h | h <;> simp [h] <;> omega

theorem countP_or_le {α : Type} (p q : α → Bool) (l : List α) :
    l.countP (fun a => p a || q a) ≤ l.countP p + l.countP q := by
  induction l with
  | nil => simp
  | cons a l ih =>
    rw [List.countP_cons, List.countP_cons, List.countP_cons]
    cases hp : p a <;> cases hq : q a <;> simp [hp, hq] <;> omega

theorem bitCount_or_le {a b : Nat} (ha : a < 2 ^ 64) (hb : b < 2 ^ 64) :
    bitCount (a ||| b) ≤ bitCount a + bitCount b := by
  rw [bitCount_eq_countP 64 (a ||| b) (Nat.or_lt_two_pow ha hb), bitCount_eq_countP 64 a ha,
    bitCount_eq_countP 64 b hb]
  have hcong : (List.range 64).countP (fun i => (a ||| b).testBit i)
      = (List.range 64).countP (fun i => a.testBit i || b.testBit i) := by
    apply List.countP_congr
    intro i _
    simp [Nat.testBit_lor]
  rw [hcong]
  exact countP_or_le _ _ _

theorem bitCount_le_64 {m : Nat} (hm : m < 2 ^ 64) : bitCount m ≤ 64 := by
  rw [bitCount_eq_countP 64 m hm]
  exact le_trans (List.countP_le_length _) (by simp)

theorem popcount_le_64 {m : Nat} (hm : m < 2 ^ 64) : popcount m ≤ 64 := by
  rw [popcount_eq_bitCount hm]
  exact bitCount_le_64 hm

theorem popcount_or_le {a b : Nat} (ha : a < 2 ^ 64) (hb : b < 2 ^ 64) :
    popcount (a ||| b) ≤ popcount a + popcount b := by
  rw [popcount_eq_bitCount (Nat.or_lt_two_pow ha hb), popcount_eq_bitCount ha,
    popcount_eq_bitCount hb]
  exact bitCount_or_le ha hb

/-! ### Reducing the nested search loops to a flat fold over mask pairs -/

theorem evalPair_checked (iMask jMask : Nat) (st : SearchState) :
    (evalPair iMask jMask st).checked = st.checked := by
  simp only [evalPair]
  split <;> split <;> rfl

theorem evalPair_of_lt {iMask jMask : Nat} {st : SearchState}
    (h : popcount (iMask ||| jMask) < st.topWeight) : evalPair iMask jMask st = st := by
  have h1 : ¬ st.topWeight < popcount (iMask ||| jMask) := by omega
  have h2 : ¬ popcount (iMask ||| jMask) = st.topWeight := by omega
  simp only [evalPair, if_neg h1, if_neg h2]

theorem innerClass_eq_noPrune (iMask : Nat) (cls : Nat × List Nat) (st : SearchState)
    (hi : iMask < 2 ^ 64)
    (hcls : ∀ m ∈ cls.2, popcount m = cls.1 ∧ m < 2 ^ 64) :
    innerClass (popcount iMask) iMask st cls = cls.2.foldl (innerMask iMask) st := by
  unfold innerClass
  split
  case isTrue hp =>
    have key : ∀ (l : List Nat) (st : SearchState),
        (∀ m ∈ l, popcount m = cls.1 ∧ m < 2 ^ 64) →
        (popcount iMask + cls.1) % 256 < st.topWeight →
        l.foldl (innerMask iMask) st = st := by
      intro l
      induction l with
      | nil => intro st _ _; rfl
      | cons j l ih =>
        intro st hl hlt
        have hj := hl j (by simp)
        have hstep : innerMask iMask st j = st := by
          unfold innerMask
          split
          · rfl
          · apply evalPair_of_lt
            have hb : popcount (iMask ||| j) ≤ popcount iMask + popcount j :=
              popcount_or_le hi hj.2
            have hb1 : popcount iMask ≤ 64 := popcount_le_64 hi
            have hb2 : popcount j ≤ 64 := popcount_le_64 hj.2
            have hb3 : popcount j = cls.1 := hj.1
            omega
        simp only [List.foldl_cons, hstep]
        exact ih st (fun m hm => hl m (by simp [hm])) hlt
    exact (key cls.2 st hcls hp).symm
  case isFalse hp => rfl

theorem classesFold_eq_flat (iMask : Nat) (hi : iMask < 2 ^ 64) :
    ∀ (per : List (Nat × List Nat)) (st : SearchState),
      (∀ cls ∈ per, ∀ m ∈ cls.2, popcount m = cls.1 ∧ m < 2 ^ 64) →
      per.foldl (innerClass (popcount iMask) iMask) st
        = ((per.map Prod.snd).flatten).foldl (innerMask iMask) st := by
  intro per
  induction per with
  | nil => intro st _; rfl
  | cons cls per ih =>
    intro st hper
    simp only [List.foldl_cons, List.map_cons, List.flatten_cons, List.foldl_append]
    rw [innerClass_eq_noPrune iMask cls st hi (hper cls (by simp))]
    exact ih _ (fun c hc => hper c (by simp [hc]))

theorem classesFoldNP_eq_flat (iMask : Nat) :
    ∀ (per : List (Nat × List Nat)) (st : SearchState),
      per.foldl (innerClassNoPrune iMask) st
        = ((per.map Prod.snd).flatten).foldl (innerMask iMask) st := by
  intro per
  induction per with
  | nil => intro st; rfl
  | cons cls per ih =>
    intro st
    simp only [List.foldl_cons, List.map_cons, List.flatten_cons, List.foldl_append,
      innerClassNoPrune]
    exact ih _

theorem outerFold_eq_flat (per : List (Nat × List Nat))
    (hper : ∀ cls ∈ per, ∀ m ∈ cls.2, popcount m = cls.1 ∧ m < 2 ^ 64) :
    ∀ (suffix : List (Nat × List Nat)) (st : SearchState),
      (∀ cls ∈ suffix, cls ∈ per) →
      suffix.foldl (fun st cls => cls.2.foldl (outerMask per cls.1) st) st
        = ((suffix.map Prod.snd).flatten).foldl
            (fun st i => ((per.map Prod.snd).flatten).foldl (innerMask i)
              { st with checked := st.checked ++ [i] }) st := by
  intro suffix
  induction suffix with
  | nil => intro st _; rfl
  | cons cls suffix ih =>
    intro st hsub
    simp only [List.foldl_cons, List.map_cons, List.flatten_cons, List.foldl_append]
    have hmem : cls ∈ per := hsub cls (by simp)
    have hinner : ∀ (st2 : SearchState), cls.2.foldl (outerMask per cls.1) st2
        = cls.2.foldl (fun st i => ((per.map Prod.snd).flatten).foldl (innerMask i)
            { st with checked := st.checked ++ [i] }) st2 := by
      intro st2
      apply List.foldl_ext
      intro st3 i hi2
      have hclsI := hper cls hmem i hi2
      unfold outerMask
      rw [show cls.1 = popcount i from hclsI.1.symm]
      exact classesFold_eq_flat i hclsI.2 per _ hper
    rw [hinner st]
    exact ih _ (fun c hc => hsub c (by simp [hc]))

theorem outerFoldNP_eq_flat (per : List (Nat × List Nat)) :
    ∀ (suffix : List (Nat × List Nat)) (st : SearchState),
      suffix.foldl (fun st cls => cls.2.foldl (outerMaskNoPrune per) st) st
        = ((suffix.map Prod.snd).flatten).foldl
            (fun st i => ((per.map Prod.snd).flatten).foldl (innerMask i)
              { st with checked := st.checked ++ [i] }) st := by
  intro suffix
  induction suffix with
  | nil => intro st; rfl
  | cons cls suffix ih =>
    intro st
    simp only [List.foldl_cons, List.map_cons, List.flatten_cons, List.foldl_append]
    have hinner : ∀ (st2 : SearchState), cls.2.foldl (outerMaskNoPrune per) st2
        = cls.2.foldl (fun st i => ((per.map Prod.snd).flatten).foldl (innerMask i)
            { st with checked := st.checked ++ [i] }) st2 := by
      intro st2
      apply List.foldl_ext
      intro st3 i _
      unfold outerMaskNoPrune
      exact classesFoldNP_eq_flat i per _
    rw [hinner st]
    exact ih _

theorem inner_fold_filter (i : Nat) :
    ∀ (l : List Nat) (st : SearchState),
      l.foldl (innerMask i) st
        = (l.filter (fun j => decide (j ∉ st.checked))).foldl (fun s j => evalPair i j s) st := by
  intro l
  induction l with
  | nil => intro st; rfl
  | cons j l ih =>
    intro st
    simp only [List.foldl_cons, List.filter_cons]
    by_cases hj : j ∈ st.checked
    · have hstep : innerMask i st j = st := by unfold innerMask; rw [if_pos hj]
      have hp : (decide (j ∉ st.checked)) = false := by simp [hj]
      rw [hstep, hp]
      simp only [Bool.false_eq_true, if_false]
      exact ih st
    · have hstep : innerMask i st j = evalPair i j st := by unfold innerMask; rw [if_neg hj]
      have hp : (decide (j ∉ st.checked)) = true := by simp [hj]
      rw [hstep, hp, if_pos rfl]
      simp only [List.foldl_cons]
      rw [ih (evalPair i j st)]
      simp only [evalPair_checked]

theorem evalPair_as_step (i j tw : Nat) (tp : List (Nat × Nat)) (c : List Nat) :
    evalPair i j ⟨tw, tp, c⟩
      = ⟨(step (tw, tp) (i, j)).1, (step (tw, tp) (i, j)).2, c⟩ := by
  simp only [evalPair, step]
  by_cases h1 : tw < popcount (i ||| j)
  · simp only [if_pos h1]
    by_cases h2 : popcount (i ||| j) = popcount (i ||| j)
    · simp [if_pos h2]
    · exact absurd rfl h2
  · simp only [if_neg h1]
    by_cases h2 : popcount (i ||| j) = tw
    · simp [if_pos h2]
    · simp [if_neg h2]

theorem evalList_eq_runPairs (i : Nat) :
    ∀ (js : List Nat) (tw : Nat) (tp : List (Nat × Nat)) (c : List Nat),
      js.foldl (fun s j => evalPair i j s) ⟨tw, tp, c⟩
        = ⟨(runPairs (tw, tp) (js.map (fun j => (i, j)))).1,
           (runPairs (tw, tp) (js.map (fun j => (i, j)))).2, c⟩ := by
  intro js
  induction js with
  | nil => intro tw tp c; rfl
  | cons j js ih =>
    intro tw tp c
    simp only [List.foldl_cons, List.map_cons, runPairs] at *
    rw [evalPair_as_step]
    rw [ih (step (tw, tp) (i, j)).1 (step (tw, tp) (i, j)).2 c]

theorem outer_flat_go (L : List Nat) :
    ∀ (suf pre : List Nat) (tw : Nat) (tp : List (Nat × Nat)),
      L = pre ++ suf → L.Nodup →
      suf.foldl (fun st i => L.foldl (innerMask i) { st with checked := st.checked ++ [i] })
          ⟨tw, tp, pre⟩
        = ⟨(runPairs (tw, tp) (allPairs suf)).1, (runPairs (tw, tp) (allPairs suf)).2, L⟩ := by
  intro suf
  induction suf with
  | nil =>
    intro pre tw tp hL _
    simp only [List.foldl_nil, allPairs, runPairs]
    rw [hL, List.append_nil]
  | cons i rest ih =>
    intro pre tw tp hL hnd
    simp only [List.foldl_cons]
    have hst : ({ (⟨tw, tp, pre⟩ : SearchState) with checked := pre ++ [i] })
        = (⟨tw, tp, pre ++ [i]⟩ : SearchState) := rfl
    rw [inner_fold_filter]
    have hnodup : (pre ++ i :: rest).Nodup := hL ▸ hnd
    obtain ⟨hnp, hnir, hdisj⟩ := List.nodup_append.mp hnodup
    have hfil : L.filter (fun j => decide (j ∉ (pre ++ [i]))) = rest := by
      rw [hL, List.filter_append, List.filter_cons]
      have h1 : pre.filter (fun j => decide (j ∉ (pre ++ [i]))) = [] := by
        apply List.filter_eq_nil_iff.mpr
        intro a ha
        simp [List.mem_append, ha]
      have h2 : (decide (i ∉ (pre ++ [i]))) = false := by
        simp
      have h3 : rest.filter (fun j => decide (j ∉ (pre ++ [i]))) = rest := by
        apply List.filter_eq_self.mpr
        intro a ha
        have hane : a ≠ i := by
          intro hai
          subst hai
          exact (List.nodup_cons.mp hnir).1 ha
        have hanp : a ∉ pre := fun hap => hdisj hap (by simp [ha])
        simp [List.mem_append, hanp, hane]
      rw [h1, h2, h3]
      simp
    have hchk : (⟨tw, tp, pre⟩ : SearchState).checked ++ [i] = pre ++ [i] := rfl
    rw [hchk, hst, hfil]
    rw [evalList_eq_runPairs]
    have hL2 : L = (pre ++ [i]) ++ rest := by rw [hL]; simp
    rw [ih (pre ++ [i]) (runPairs (tw, tp) (rest.map (fun j => (i, j)))).1
      (runPairs (tw, tp) (rest.map (fun j => (i, j)))).2 hL2 hnd]
    have hrp : runPairs ((runPairs (tw, tp) (rest.map (fun j => (i, j)))).1,
        (runPairs (tw, tp) (rest.map (fun j => (i, j)))).2) (allPairs rest)
        = runPairs (tw, tp) (allPairs (i :: rest)) := by
      show List.foldl step _ _ = _
      rw [show ((runPairs (tw, tp) (rest.map (fun j => (i, j)))).1,
          (runPairs (tw, tp) (rest.map (fun j => (i, j)))).2)
          = runPairs (tw, tp) (rest.map (fun j => (i, j))) from rfl]
      show _ = List.foldl step (tw, tp) (allPairs (i :: rest))
      rw [show allPairs (i :: rest) = rest.map (fun j => (i, j)) ++ allPairs rest from rfl]
      rw [List.foldl_append]
      rfl
    rw [hrp]

theorem findTop_eq_runPairs (ws : WordSet) (hinv : WSInv ws) :
    findTopWeightAndPairs ws = runPairs (0, []) (allPairs (masksList ws)) := by
  obtain ⟨hcls, hnd, _⟩ := hinv
  unfold findTopWeightAndPairs
  rw [outerFold_eq_flat ws.wordMasksPerWeight hcls ws.wordMasksPerWeight ⟨0, [], []⟩
    (fun c hc => hc)]
  have hml : ((ws.wordMasksPerWeight.map Prod.snd).flatten) = masksList ws := rfl
  rw [hml]
  rw [outer_flat_go (masksList ws) (masksList ws) [] 0 [] (by simp) hnd]

theorem findTopNP_eq_runPairs (ws : WordSet) (hnd : (masksList ws).Nodup) :
    findTopWeightAndPairsNoPrune ws = runPairs (0, []) (allPairs (masksList ws)) := by
  unfold findTopWeightAndPairsNoPrune
  rw [outerFoldNP_eq_flat ws.wordMasksPerWeight ws.wordMasksPerWeight ⟨0, [], []⟩]
  have hml : ((ws.wordMasksPerWeight.map Prod.snd).flatten) = masksList ws := rfl
  rw [hml]
  rw [outer_flat_go (masksList ws) (masksList ws) [] 0 [] (by simp) hnd]

/-! ### Properties of the flat reference search -/

theorem le_maxW : ∀ (ps : List (Nat × Nat)) (tw : Nat), tw ≤ maxW tw ps := by
  intro ps
  induction ps with
  | nil => intro tw; exact le_refl _
  | cons pr ps ih =>
    intro tw
    exact le_trans (le_max_left _ _) (ih (max tw (popcount (pr.1 ||| pr.2))))

theorem maxW_mem_le : ∀ (ps : List (Nat × Nat)) (tw : Nat) (pr : Nat × Nat), pr ∈ ps →
    popcount (pr.1 ||| pr.2) ≤ maxW tw ps := by
  intro ps
  induction ps with
  | nil => intro tw pr h; exact absurd h (by simp)
  | cons q ps ih =>
    intro tw pr h
    rcases List.mem_cons.mp h with h | h
    · subst h
      exact le_trans (le_max_right _ _) (le_maxW ps _)
    · exact ih _ pr h

theorem maxW_attained : ∀ (ps : List (Nat × Nat)) (tw : Nat),
    maxW tw ps = tw ∨ ∃ pr ∈ ps, maxW tw ps = popcount (pr.1 ||| pr.2) := by
  intro ps
  induction ps with
  | nil => intro tw; exact Or.inl rfl
  | cons q ps ih =>
    intro tw
    have hm : maxW tw (q :: ps) = maxW (max tw (popcount (q.1 ||| q.2))) ps := rfl
    rcases ih (max tw (popcount (q.1 ||| q.2))) with h | ⟨pr, hpr, he⟩
    · rcases le_total tw (popcount (q.1 ||| q.2)) with hle | hle
      · exact Or.inr ⟨q, by simp, by rw [hm, h, max_eq_right hle]⟩
      · exact Or.inl (by rw [hm, h, max_eq_left hle])
    · exact Or.inr ⟨pr, by simp [hpr], by rw [hm, he]⟩

theorem runPairs_spec : ∀ (ps : List (Nat × Nat)) (tw : Nat) (tp : List (Nat × Nat)),
    runPairs (tw, tp) ps
      = (maxW tw ps, (if maxW tw ps = tw then tp else [])
          ++ ps.filter (fun pr => decide (popcount (pr.1 ||| pr.2) = maxW tw ps))) := by
  intro ps
  induction ps with
  | nil => intro tw tp; simp [runPairs, maxW]
  | cons pr ps ih =>
    intro tw tp
    have hrp : runPairs (tw, tp) (pr :: ps) = runPairs (step (tw, tp) pr) ps := rfl
    have hmw : maxW tw (pr :: ps) = maxW (max tw (popcount (pr.1 ||| pr.2))) ps := rfl
    rcases Nat.lt_or_ge tw (popcount (pr.1 ||| pr.2)) with h1 | h1
    · have hstep : step (tw, tp) pr = (popcount (pr.1 ||| pr.2), [pr]) := by
        simp only [step]
        rw [if_pos (show (tw, tp).1 < popcount (pr.1 ||| pr.2) from h1)]
        simp
      rw [hrp, hstep, ih (popcount (pr.1 ||| pr.2)) [pr], hmw,
        max_eq_right (le_of_lt h1)]
      have hmge : popcount (pr.1 ||| pr.2) ≤ maxW (popcount (pr.1 ||| pr.2)) ps :=
        le_maxW ps _
      congr 1
      by_cases he : maxW (popcount (pr.1 ||| pr.2)) ps = popcount (pr.1 ||| pr.2)
      · have hne : ¬ maxW (popcount (pr.1 ||| pr.2)) ps = tw := by omega
        have hyes : (decide (popcount (pr.1 ||| pr.2)
            = maxW (popcount (pr.1 ||| pr.2)) ps)) = true := by
          simp only [decide_eq_true_eq]
          omega
        rw [if_pos he, if_neg hne, List.filter_cons, if_pos hyes]
        rfl
      · have hne : ¬ maxW (popcount (pr.1 ||| pr.2)) ps = tw := by omega
        have hno : ¬ (decide (popcount (pr.1 ||| pr.2)
            = maxW (popcount (pr.1 ||| pr.2)) ps)) = true := by
          simp only [decide_eq_true_eq]
          omega
        rw [if_neg he, if_neg hne, List.filter_cons, if_neg hno]
    · by_cases he : popcount (pr.1 ||| pr.2) = tw
      · have hstep : step (tw, tp) pr = (tw, tp ++ [pr]) := by
          simp only [step]
          rw [if_neg (show ¬ (tw, tp).1 < popcount (pr.1 ||| pr.2) by omega)]
          rw [if_pos (show popcount (pr.1 ||| pr.2) = (tw, tp).1 from he)]
        rw [hrp, hstep, ih tw (tp ++ [pr]), hmw, max_eq_left h1]
        congr 1
        by_cases he2 : maxW tw ps = tw
        · have hyes : (decide (popcount (pr.1 ||| pr.2) = maxW tw ps)) = true := by
            simp only [decide_eq_true_eq]
            omega
          rw [if_pos he2, if_pos he2, List.filter_cons, if_pos hyes]
          simp
        · have hno : ¬ (decide (popcount (pr.1 ||| pr.2) = maxW tw ps)) = true := by
            simp only [decide_eq_true_eq]
            omega
          rw [if_neg he2, if_neg he2, List.filter_cons, if_neg hno]
      · have hlt : popcount (pr.1 ||| pr.2) < tw := by omega
        have hstep : step (tw, tp) pr = (tw, tp) := by
          simp only [step]
          rw [if_neg (show ¬ (tw, tp).1 < popcount (pr.1 ||| pr.2) by omega)]
          rw [if_neg (show ¬ popcount (pr.1 ||| pr.2) = (tw, tp).1 by omega)]
        rw [hrp, hstep, ih tw tp, hmw, max_eq_left h1]
        have hmge : tw ≤ maxW tw ps := le_maxW ps _
        congr 1
        have hno : ¬ (decide (popcount (pr.1 ||| pr.2) = maxW tw ps)) = true := by
          simp only [decide_eq_true_eq]
          omega
        rw [List.filter_cons, if_neg hno]

theorem runPairs_zero_spec (ps : List (Nat × Nat)) :
    runPairs (0, []) ps
      = (maxW 0 ps, ps.filter (fun pr => decide (popcount (pr.1 ||| pr.2) = maxW 0 ps))) := by
  rw [runPairs_spec]
  congr 1
  split <;> simp

/-! ### Combinatorics of `allPairs` -/

theorem mem_allPairs_sub : ∀ (L : List Nat) (a b : Nat), (a, b) ∈ allPairs L →
    a ∈ L ∧ b ∈ L := by
  intro L
  induction L with
  | nil => intro a b h; exact absurd h (by simp [allPairs])
  | cons x rest ih =>
    intro a b h
    rcases List.mem_append.mp h with h | h
    · obtain ⟨j, hj, he⟩ := List.mem_map.mp h
      obtain ⟨he1, he2⟩ := Prod.mk.injEq .. ▸ he
      constructor
      · simp [← he1]
      · simp [← he2, hj]
    · obtain ⟨ha, hb⟩ := ih a b h
      exact ⟨by simp [ha], by simp [hb]⟩

theorem mem_allPairs_ne : ∀ (L : List Nat), L.Nodup → ∀ (a b : Nat),
    (a, b) ∈ allPairs L → a ≠ b := by
  intro L
  induction L with
  | nil => intro _ a b h; exact absurd h (by simp [allPairs])
  | cons x rest ih =>
    intro hnd a b h
    obtain ⟨hx, hrest⟩ := List.nodup_cons.mp hnd
    rcases List.mem_append.mp h with h | h
    · obtain ⟨j, hj, he⟩ := List.mem_map.mp h
      obtain ⟨he1, he2⟩ := Prod.mk.injEq .. ▸ he
      intro hab
      rw [← he1, ← he2] at hab
      exact hx (hab ▸ hj)
    · exact ih hrest a b h

theorem allPairs_cover : ∀ (L : List Nat) (a b : Nat), a ∈ L → b ∈ L → a ≠ b →
    (a, b) ∈ allPairs L ∨ (b, a) ∈ allPairs L := by
  intro L
  induction L with
  | nil => intro a b ha _ _; exact absurd ha (by simp)
  | cons x rest ih =>
    intro a b ha hb hne
    rcases List.mem_cons.mp ha with hax | har
    · rcases List.mem_cons.mp hb with hbx | hbr
      · exact absurd (hax.trans hbx.symm) hne
      · exact Or.inl (List.mem_append.mpr (Or.inl (List.mem_map.mpr ⟨b, hbr, by rw [hax]⟩)))
    · rcases List.mem_cons.mp hb with hbx | hbr
      · exact Or.inr (List.mem_append.mpr (Or.inl (List.mem_map.mpr ⟨a, har, by rw [hbx]⟩)))
      · rcases ih a b har hbr hne with h | h
        · exact Or.inl (List.mem_append.mpr (Or.inr h))
        · exact Or.inr (List.mem_append.mpr (Or.inr h))

theorem allPairs_nodup : ∀ (L : List Nat), L.Nodup → (allPairs L).Nodup := by
  intro L
  induction L with
  | nil => intro _; simp [allPairs]
  | cons x rest ih =>
    intro hnd
    obtain ⟨hx, hrest⟩ := List.nodup_cons.mp hnd
    show ((rest.map (fun b => (x, b))) ++ allPairs rest).Nodup
    rw [List.nodup_append]
    refine ⟨List.Nodup.map ?_ hrest, ih hrest, ?_⟩
    · intro u v huv
      exact (Prod.mk.injEq .. ▸ huv).2
    · intro p hp hq
      obtain ⟨j, _, he⟩ := List.mem_map.mp hp
      have hfst : p.1 = x := by rw [← he]
      have hmem : p.1 ∈ rest := (mem_allPairs_sub rest p.1 p.2 (by rw [Prod.mk.eta]; exact hq)).1
      exact hx (hfst ▸ hmem)

theorem allPairs_no_swap : ∀ (L : List Nat), L.Nodup → ∀ (a b : Nat),
    (a, b) ∈ allPairs L → (b, a) ∉ allPairs L := by
  intro L
  induction L with
  | nil => intro _ a b h; exact absurd h (by simp [allPairs])
  | cons x rest ih =>
    intro hnd a b hab hba
    obtain ⟨hx, hrest⟩ := List.nodup_cons.mp hnd
    rcases List.mem_append.mp hab with h1 | h1
    · obtain ⟨j, hj, he⟩ := List.mem_map.mp h1
      obtain ⟨he1, he2⟩ := Prod.mk.injEq .. ▸ he
      rcases List.mem_append.mp hba with h2 | h2
      · obtain ⟨j2, hj2, he'⟩ := List.mem_map.mp h2
        obtain ⟨he3, he4⟩ := Prod.mk.injEq .. ▸ he'
        have hxj : x = j := he3.trans he2.symm
        exact hx (hxj ▸ hj)
      · have := (mem_allPairs_sub rest b a h2).2
        rw [← he1] at this
        exact hx this
    · rcases List.mem_append.mp hba with h2 | h2
      · obtain ⟨j2, hj2, he'⟩ := List.mem_map.mp h2
        obtain ⟨he3, he4⟩ := Prod.mk.injEq .. ▸ he'
        have := (mem_allPairs_sub rest a b h1).2
        rw [← he3] at this
        exact hx this
      · exact ih hrest a b h1 h2

/-! ### Characterisation of the search result over a well-formed word set -/

theorem findTop_pairs_iff (ws : WordSet) (hinv : WSInv ws) (pr : Nat × Nat) :
    pr ∈ (findTopWeightAndPairs ws).2
      ↔ pr ∈ allPairs (masksList ws)
          ∧ popcount (pr.1 ||| pr.2) = (findTopWeightAndPairs ws).1 := by
  rw [findTop_eq_runPairs ws hinv, runPairs_zero_spec]
  simp [List.mem_filter]

theorem findTop_le (ws : WordSet) (hinv : WSInv ws) {a b : Nat}
    (ha : a ∈ masksList ws) (hb : b ∈ masksList ws) (hne : a ≠ b) :
    popcount (a ||| b) ≤ (findTopWeightAndPairs ws).1 := by
  rw [findTop_eq_runPairs ws hinv, runPairs_zero_spec]
  rcases allPairs_cover (masksList ws) a b ha hb hne with h | h
  · exact maxW_mem_le _ 0 (a, b) h
  · have h2 := maxW_mem_le (allPairs (masksList ws)) 0 (b, a) h
    calc popcount (a ||| b) = popcount (b ||| a) := by rw [Nat.lor_comm]
    _ ≤ _ := h2

theorem findTop_attained (ws : WordSet) (hinv : WSInv ws)
    (h2 : 2 ≤ (masksList ws).length) :
    ∃ pr ∈ (findTopWeightAndPairs ws).2,
      popcount (pr.1 ||| pr.2) = (findTopWeightAndPairs ws).1 := by
  obtain ⟨x, y, rest, hL⟩ : ∃ x y rest, masksList ws = x :: y :: rest := by
    cases hml : masksList ws with
    | nil => rw [hml] at h2; simp at h2
    | cons x t =>
      cases t with
      | nil => rw [hml] at h2; simp at h2
      | cons y rest => exact ⟨x, y, rest, rfl⟩
  have hxy : (x, y) ∈ allPairs (masksList ws) := by
    rw [hL]
    show (x, y) ∈ ((y :: rest).map (fun b => (x, b))) ++ allPairs (y :: rest)
    exact List.mem_append.mpr (Or.inl (List.mem_map.mpr ⟨y, by simp, rfl⟩))
  have hT : (findTopWeightAndPairs ws).1 = maxW 0 (allPairs (masksList ws)) := by
    rw [findTop_eq_runPairs ws hinv, runPairs_zero_spec]
  rcases maxW_attained (allPairs (masksList ws)) 0 with h | ⟨pr, hpr, he⟩
  · have hle := maxW_mem_le (allPairs (masksList ws)) 0 (x, y) hxy
    have hw : popcount ((x, y).1 ||| (x, y).2) = maxW 0 (allPairs (masksList ws)) := by omega
    exact ⟨(x, y), (findTop_pairs_iff ws hinv _).mpr ⟨hxy, by rw [hT]; exact hw⟩,
      by rw [hT]; exact hw⟩
  · exact ⟨pr, (findTop_pairs_iff ws hinv _).mpr ⟨hpr, by rw [hT, he]⟩, by rw [hT, he]⟩

theorem findTop_pairs_nodup (ws : WordSet) (hinv : WSInv ws) :
    (findTopWeightAndPairs ws).2.Nodup := by
  rw [findTop_eq_runPairs ws hinv, runPairs_zero_spec]
  exact List.Nodup.filter _ (allPairs_nodup _ hinv.2.1)

theorem findTop_pairs_no_swap (ws : WordSet) (hinv : WSInv ws) {a b : Nat}
    (h : (a, b) ∈ (findTopWeightAndPairs ws).2) : (b, a) ∉ (findTopWeightAndPairs ws).2 := by
  intro h2
  have h1m := ((findTop_pairs_iff ws hinv _).mp h).1
  have h2m := ((findTop_pairs_iff ws hinv _).mp h2).1
  exact allPairs_no_swap _ hinv.2.1 a b h1m h2m

theorem findTop_small (ws : WordSet) (hinv : WSInv ws)
    (h1 : (masksList ws).length ≤ 1) : findTopWeightAndPairs ws = (0, []) := by
  rw [findTop_eq_runPairs ws hinv]
  have he : allPairs (masksList ws) = [] := by
    cases hml : masksList ws with
    | nil => rfl
    | cons x t =>
      cases t with
      | nil => rfl
      | cons y rest => rw [hml] at h1; simp at h1
  rw [he]
  rfl

/-! ### The association-list grouping of `makeWordSet` -/

theorem addToGroup_keys {α : Type} : ∀ (acc : List (Nat × List α)) (k : Nat) (v : α),
    (addToGroup acc k v).map Prod.fst
      = if k ∈ acc.map Prod.fst then acc.map Prod.fst else acc.map Prod.fst ++ [k] := by
  intro acc
  induction acc with
  | nil => intro k v; simp [addToGroup]
  | cons g rest ih =>
    intro k v
    simp only [addToGroup]
    by_cases hk : g.1 = k
    · rw [if_pos hk]
      simp [hk]
    · rw [if_neg hk]
      simp only [List.map_cons, ih]
      by_cases hmem : k ∈ rest.map Prod.fst
      · rw [if_pos hmem, if_pos (by simp [hmem])]
      · rw [if_neg hmem, if_neg (by
          simp only [List.mem_cons]
          rintro (h | h)
          · exact hk h.symm
          · exact hmem h)]
        simp

theorem mem_keys_of_mem {α : Type} {acc : List (Nat × List α)} {p : Nat × List α}
    (h : p ∈ acc) : p.1 ∈ acc.map Prod.fst :=
  List.mem_map.mpr ⟨p, h, rfl⟩

theorem addToGroup_mem {α : Type} : ∀ (acc : List (Nat × List α)) (k : Nat) (v : α)
    (p : Nat × List α), (acc.map Prod.fst).Nodup →
    (p ∈ addToGroup acc k v ↔
      (p ∈ acc ∧ p.1 ≠ k) ∨ (∃ vs, (k, vs) ∈ acc ∧ p = (k, vs ++ [v]))
        ∨ (k ∉ acc.map Prod.fst ∧ p = (k, [v]))) := by
  intro acc
  induction acc with
  | nil =>
    intro k v p _
    simp [addToGroup]
  | cons g rest ih =>
    intro k v p hnd
    have hnd2 : (g.1 :: rest.map Prod.fst).Nodup := by
      rw [List.map_cons] at hnd
      exact hnd
    obtain ⟨hg, hrest⟩ := List.nodup_cons.mp hnd2
    simp only [addToGroup]
    by_cases hk : g.1 = k
    · rw [if_pos hk]
      constructor
      · intro h
        rcases List.mem_cons.mp h with h | h
        · exact Or.inr (Or.inl ⟨g.2, by simp [← hk], by rw [h, hk]⟩)
        · have hp1 : p.1 ∈ rest.map Prod.fst := mem_keys_of_mem h
          have hne : p.1 ≠ k := by
            intro he
            rw [he, ← hk] at hp1
            exact hg hp1
          exact Or.inl ⟨by simp [h], hne⟩
      · rintro (⟨hmem, hne⟩ | ⟨vs, hvs, he⟩ | ⟨hnk, he⟩)
        · rcases List.mem_cons.mp hmem with h | h
          · exact absurd (h ▸ hk) hne
          · exact List.mem_cons.mpr (Or.inr h)
        · rcases List.mem_cons.mp hvs with h | h
          · have hv2 : vs = g.2 := congrArg Prod.snd h
            exact List.mem_cons.mpr (Or.inl (by rw [he, hv2, ← hk]))
          · have : k ∈ rest.map Prod.fst := by
              have := mem_keys_of_mem h
              simpa using this
            exact absurd this (hk ▸ hg)
        · exact absurd (by simp [← hk]) hnk
    · rw [if_neg hk]
      constructor
      · intro h
        rcases List.mem_cons.mp h with h | h
        · exact Or.inl ⟨by simp [h], by rw [h]; exact hk⟩
        · rcases (ih k v p hrest).mp h with ⟨hm, hne⟩ | ⟨vs, hvs, he⟩ | ⟨hnk, he⟩
          · exact Or.inl ⟨by simp [hm], hne⟩
          · exact Or.inr (Or.inl ⟨vs, by simp [hvs], he⟩)
          · refine Or.inr (Or.inr ⟨?_, he⟩)
            simp only [List.map_cons, List.mem_cons]
            rintro (h2 | h2)
            · exact hk h2.symm
            · exact hnk h2
      · rintro (⟨hmem, hne⟩ | ⟨vs, hvs, he⟩ | ⟨hnk, he⟩)
        · rcases List.mem_cons.mp hmem with h | h
          · exact List.mem_cons.mpr (Or.inl h)
          · exact List.mem_cons.mpr (Or.inr ((ih k v p hrest).mpr (Or.inl ⟨h, hne⟩)))
        · rcases List.mem_cons.mp hvs with h | h
          · exact absurd (congrArg Prod.fst h.symm) hk
          · exact List.mem_cons.mpr (Or.inr ((ih k v p hrest).mpr (Or.inr (Or.inl ⟨vs, h, he⟩))))
        · have hnk2 : k ∉ rest.map Prod.fst := by
            intro h
            exact hnk (by simp [h])
          exact List.mem_cons.mpr (Or.inr ((ih k v p hrest).mpr (Or.inr (Or.inr ⟨hnk2, he⟩))))

theorem addToGroup_groupsOf {α : Type} (f : α → Nat) (s : List α)
    (acc : List (Nat × List α)) (v : α) (h : GroupsOf f s acc) :
    GroupsOf f (s ++ [v]) (addToGroup acc (f v) v) := by
  obtain ⟨⟨hnd, hkey⟩, hent⟩ := h
  have hkeys := addToGroup_keys acc (f v) v
  refine ⟨⟨?_, ?_⟩, ?_⟩
  · rw [hkeys]
    by_cases hmem : f v ∈ acc.map Prod.fst
    · rw [if_pos hmem]; exact hnd
    · rw [if_neg hmem, List.nodup_append]
      refine ⟨hnd, by simp, ?_⟩
      intro a ha hb
      rw [List.mem_singleton] at hb
      subst hb
      exact hmem ha
  · intro k
    rw [hkeys]
    by_cases hmem : f v ∈ acc.map Prod.fst
    · rw [if_pos hmem]
      rw [hkey k]
      constructor
      · rintro ⟨w, hw, he⟩
        exact ⟨w, by simp [hw], he⟩
      · rintro ⟨w, hw, he⟩
        rcases (by simpa using hw : w ∈ s ∨ w = v) with hw2 | hw2
        · exact ⟨w, hw2, he⟩
        · subst hw2
          obtain ⟨w2, hw2, he2⟩ := (hkey (f w)).mp hmem
          exact ⟨w2, hw2, by rw [he2, he]⟩
    · rw [if_neg hmem]
      simp only [List.mem_append, List.mem_singleton]
      constructor
      · rintro (h | h)
        · obtain ⟨w, hw, he⟩ := (hkey k).mp h
          exact ⟨w, by simp [hw], he⟩
        · exact ⟨v, by simp, h.symm⟩
      · rintro ⟨w, hw, he⟩
        rcases (by simpa using hw : w ∈ s ∨ w = v) with hw2 | hw2
        · exact Or.inl ((hkey k).mpr ⟨w, hw2, he⟩)
        · exact Or.inr (by rw [← he, hw2])
  · intro p hp
    rcases (addToGroup_mem acc (f v) v p hnd).mp hp with ⟨hm, hne⟩ | ⟨vs, hvs, he⟩ | ⟨hnk, he⟩
    · rw [hent p hm, List.filter_append]
      have hone : [v].filter (fun w => f w == p.1) = [] := by
        have : (f v == p.1) = false := beq_eq_false_iff_ne.mpr (Ne.symm hne)
        simp [List.filter, this]
      rw [hone, List.append_nil]
    · have hvs2 : vs = s.filter (fun w => f w == f v) := hent (f v, vs) hvs
      rw [he]
      show vs ++ [v] = (s ++ [v]).filter (fun w => f w == f v)
      rw [List.filter_append, ← hvs2]
      have hone : [v].filter (fun w => f w == f v) = [v] := by
        simp [List.filter]
      rw [hone]
    · rw [he]
      show [v] = (s ++ [v]).filter (fun w => f w == f v)
      rw [List.filter_append]
      have h1 : s.filter (fun w => f w == f v) = [] := by
        apply List.filter_eq_nil_iff.mpr
        intro w hw
        simp only [beq_iff_eq]
        intro hfw
        exact hnk ((hkey (f v)).mpr ⟨w, hw, hfw⟩)
      have hone : [v].filter (fun w => f w == f v) = [v] := by
        simp [List.filter]
      rw [h1, hone]
      simp

theorem groupByKey_groupsOf {α : Type} (f : α → Nat) (l : List α) :
    GroupsOf f l (groupByKey f l) := by
  suffices h : ∀ (l2 : List α) (s : List α) (acc), GroupsOf f s acc →
      GroupsOf f (s ++ l2) (l2.foldl (fun acc v => addToGroup acc (f v) v) acc) by
    have h2 := h l [] [] ⟨⟨by simp, by simp⟩, by simp⟩
    simpa using h2
  intro l2
  induction l2 with
  | nil => intro s acc h; simpa using h
  | cons v l2 ih =>
    intro s acc h
    have h2 := addToGroup_groupsOf f s acc v h
    have h3 := ih (s ++ [v]) _ h2
    simpa using h3

theorem addToGroup_flatten {α : Type} : ∀ (acc : List (Nat × List α)) (k : Nat) (v : α),
    (((addToGroup acc k v).map Prod.snd).flatten).Perm
      (((acc.map Prod.snd).flatten) ++ [v]) := by
  intro acc
  induction acc with
  | nil => intro k v; simp [addToGroup]
  | cons g rest ih =>
    intro k v
    simp only [addToGroup]
    by_cases hk : g.1 = k
    · rw [if_pos hk]
      have h2 : (((g.1, g.2 ++ [v]) :: rest).map Prod.snd).flatten
          = g.2 ++ ([v] ++ (rest.map Prod.snd).flatten) := by simp
      have h3 : ((((g :: rest).map Prod.snd).flatten) ++ [v])
          = g.2 ++ ((rest.map Prod.snd).flatten ++ [v]) := by simp
      rw [h2, h3]
      exact List.Perm.append_left _ List.perm_append_comm
    · rw [if_neg hk]
      have h2 : (((g :: addToGroup rest k v).map Prod.snd).flatten)
          = g.2 ++ ((addToGroup rest k v).map Prod.snd).flatten := by simp
      have h3 : ((((g :: rest).map Prod.snd).flatten) ++ [v])
          = g.2 ++ ((rest.map Prod.snd).flatten ++ [v]) := by simp
      rw [h2, h3]
      exact List.Perm.append_left _ (ih k v)

theorem groupByKey_flatten_perm {α : Type} (f : α → Nat) (l : List α) :
    (((groupByKey f l).map Prod.snd).flatten).Perm l := by
  suffices h : ∀ (l2 : List α) (acc : List (Nat × List α)),
      (((l2.foldl (fun acc v => addToGroup acc (f v) v) acc).map Prod.snd).flatten).Perm
        (((acc.map Prod.snd).flatten) ++ l2) by
    have h2 := h l []
    simpa using h2
  intro l2
  induction l2 with
  | nil => intro acc; simp
  | cons v l2 ih =>
    intro acc
    simp only [List.foldl_cons]
    refine (ih (addToGroup acc (f v) v)).trans ?_
    have h4 := List.Perm.append_right l2 (addToGroup_flatten acc (f v) v)
    have h5 : ((((acc.map Prod.snd).flatten) ++ [v]) ++ l2)
        = ((acc.map Prod.snd).flatten) ++ (v :: l2) := by simp
    rw [h5] at h4
    exact h4

theorem lookupGroup_groupByKey {α : Type} (f : α → Nat) (l : List α) (k : Nat) :
    lookupGroup (groupByKey f l) k = l.filter (fun v => f v == k) := by
  obtain ⟨⟨hnd, hkey⟩, hent⟩ := groupByKey_groupsOf f l
  unfold lookupGroup
  cases hfind : (groupByKey f l).find? (fun p => p.1 == k) with
  | none =>
    have hk : k ∉ (groupByKey f l).map Prod.fst := by
      intro hmem
      obtain ⟨p, hp, hpk⟩ := List.mem_map.mp hmem
      have hz := List.find?_eq_none.mp hfind p hp
      rw [hpk] at hz
      simp at hz
    symm
    apply List.filter_eq_nil_iff.mpr
    intro v hv
    simp only [beq_iff_eq]
    intro hfv
    exact hk ((hkey k).mpr ⟨v, hv, hfv⟩)
  | some p =>
    have hpk : p.1 = k := by
      have hq := List.find?_some hfind
      simpa using hq
    have hpmem : p ∈ groupByKey f l := List.mem_of_find?_eq_some hfind
    show p.2 = l.filter (fun v => f v == k)
    rw [hent p hpmem, hpk]

/-! ### Facts about `makeWordSet` -/

theorem makeWordSetR_wbm (runes : List Nat) (words : List Word) :
    (makeWordSetR runes words).wordsByMasks
      = groupByKey (fun w => makeWordMask w (runeMaskMapOf runes)) words := rfl

theorem makeWordSetR_perWeight (runes : List Nat) (words : List Word) :
    (makeWordSetR runes words).wordMasksPerWeight
      = groupByKey popcount
          ((groupByKey (fun w => makeWordMask w (runeMaskMapOf runes)) words).map Prod.fst) := rfl

theorem makeWordSetR_words (runes : List Nat) (words : List Word) :
    (makeWordSetR runes words).words = words := rfl

theorem lookupRuneMask_lt (runes : List Nat) (r : Nat) :
    lookupRuneMask (runeMaskMapOf runes) r < 2 ^ 64 := by
  unfold lookupRuneMask
  cases hfind : (runeMaskMapOf runes).find? (fun p => p.1 == r) with
  | none => norm_num
  | some p =>
    have hp : p ∈ runeMaskMapOf runes := List.mem_of_find?_eq_some hfind
    unfold runeMaskMapOf at hp
    obtain ⟨q, _, he⟩ := List.mem_map.mp hp
    have h2 : p.2 = (1 <<< q.1) % 2 ^ 64 := by rw [← he]
    show p.2 < 2 ^ 64
    rw [h2]
    exact Nat.mod_lt _ (by norm_num)

theorem makeWordMask_lt (word : Word) (runes : List Nat) :
    makeWordMask word (runeMaskMapOf runes) < 2 ^ 64 := by
  unfold makeWordMask
  suffices h : ∀ (w : List Nat) (acc : Nat), acc < 2 ^ 64 →
      w.foldl (fun mask r => mask ||| lookupRuneMask (runeMaskMapOf runes) r) acc < 2 ^ 64 by
    exact h word 0 (by norm_num)
  intro w
  induction w with
  | nil => intro acc h; exact h
  | cons r w ih =>
    intro acc h
    exact ih _ (Nat.or_lt_two_pow h (lookupRuneMask_lt runes r))

theorem makeWordSetR_inv (runes : List Nat) (words : List Word) :
    WSInv (makeWordSetR runes words) := by
  have hwbm := groupByKey_groupsOf (fun w => makeWordMask w (runeMaskMapOf runes)) words
  have hpw := groupByKey_groupsOf popcount
    ((groupByKey (fun w => makeWordMask w (runeMaskMapOf runes)) words).map Prod.fst)
  refine ⟨?_, ?_, ?_⟩
  · intro cls hcls m hm
    rw [makeWordSetR_perWeight] at hcls
    have hc := hpw.2 cls hcls
    rw [hc] at hm
    have hm2 := List.mem_filter.mp hm
    constructor
    · exact beq_iff_eq.mp hm2.2
    · obtain ⟨w, hw, he⟩ := (hwbm.1.2 m).mp hm2.1
      rw [← he]
      exact makeWordMask_lt w runes
  · have hperm : (masksList (makeWordSetR runes words)).Perm
        ((groupByKey (fun w => makeWordMask w (runeMaskMapOf runes)) words).map Prod.fst) := by
      show ((((makeWordSetR runes words).wordMasksPerWeight).map Prod.snd).flatten).Perm _
      rw [makeWordSetR_perWeight]
      exact groupByKey_flatten_perm popcount _
    exact (List.Perm.nodup_iff hperm).mpr hwbm.1.1
  · rw [makeWordSetR_wbm]
    show (_ : List Nat).Perm ((((makeWordSetR runes words).wordMasksPerWeight).map Prod.snd).flatten)
    rw [makeWordSetR_perWeight]
    exact (groupByKey_flatten_perm popcount _).symm

theorem makeWordSet_inv (words : List Word) : WSInv (makeWordSet words) :=
  makeWordSetR_inv (wordSetRunes words) words

theorem mem_wbm_group_iff (runes : List Nat) (words : List Word) (m : Nat) (w : Word) :
    w ∈ lookupGroup (makeWordSetR runes words).wordsByMasks m
      ↔ w ∈ words ∧ makeWordMask w (runeMaskMapOf runes) = m := by
  rw [makeWordSetR_wbm, lookupGroup_groupByKey, List.mem_filter]
  simp only [beq_iff_eq]

theorem mem_wbm_keys_iff (runes : List Nat) (words : List Word) (m : Nat) :
    m ∈ (makeWordSetR runes words).wordsByMasks.map Prod.fst
      ↔ ∃ w ∈ words, makeWordMask w (runeMaskMapOf runes) = m := by
  rw [makeWordSetR_wbm]
  exact (groupByKey_groupsOf _ words).1.2 m

theorem mem_masksList_iff (runes : List Nat) (words : List Word) (m : Nat) :
    m ∈ masksList (makeWordSetR runes words)
      ↔ ∃ w ∈ words, makeWordMask w (runeMaskMapOf runes) = m := by
  have hperm := (makeWordSetR_inv runes words).2.2
  rw [← List.Perm.mem_iff hperm]
  exact mem_wbm_keys_iff runes words m

theorem mem_perWeight_exists (runes : List Nat) (words : List Word) (m : Nat)
    (hm : m ∈ (makeWordSetR runes words).wordsByMasks.map Prod.fst) :
    ∃ cls ∈ (makeWordSetR runes words).wordMasksPerWeight,
      cls.1 = popcount m ∧ m ∈ cls.2 := by
  rw [makeWordSetR_wbm] at hm
  have hpw := groupByKey_groupsOf popcount
    ((groupByKey (fun w => makeWordMask w (runeMaskMapOf runes)) words).map Prod.fst)
  have hkey : popcount m ∈ (groupByKey popcount
      ((groupByKey (fun w => makeWordMask w (runeMaskMapOf runes)) words).map Prod.fst)).map
        Prod.fst :=
    (hpw.1.2 _).mpr ⟨m, hm, rfl⟩
  obtain ⟨cls, hcls, hc1⟩ := List.mem_map.mp hkey
  refine ⟨cls, by rw [makeWordSetR_perWeight]; exact hcls, hc1, ?_⟩
  rw [hpw.2 cls hcls, List.mem_filter]
  exact ⟨hm, by simp [hc1]⟩

theorem two_le_length_of_mem_ne {α : Type} {L : List α} {a b : α}
    (ha : a ∈ L) (hb : b ∈ L) (h : a ≠ b) : 2 ≤ L.length := by
  cases L with
  | nil => simp at ha
  | cons x t =>
    cases t with
    | nil =>
      simp only [List.mem_singleton] at ha hb
      exact absurd (ha.trans hb.symm) h
    | cons y r => simp [List.length_cons]

theorem testBit_makeWordMask (w : Word) (rmm : List (Nat × Nat)) (i : Nat) :
    (makeWordMask w rmm).testBit i = w.any (fun r => (lookupRuneMask rmm r).testBit i) := by
  unfold makeWordMask
  suffices h : ∀ (l : List Nat) (acc : Nat),
      (l.foldl (fun mask r => mask ||| lookupRuneMask rmm r) acc).testBit i
        = (acc.testBit i || l.any (fun r => (lookupRuneMask rmm r).testBit i)) by
    have h2 := h w 0
    rw [h2, Nat.zero_testBit]
    simp
  intro l
  induction l with
  | nil => intro acc; simp
  | cons r l ih =>
    intro acc
    simp only [List.foldl_cons, List.any_cons]
    rw [ih, Nat.testBit_lor]
    cases acc.testBit i <;> cases (lookupRuneMask rmm r).testBit i <;> simp

theorem makeWordMask_congr (rmm : List (Nat × Nat)) (w1 w2 : Word)
    (h : ∀ c : Nat, c ∈ w1 ↔ c ∈ w2) :
    makeWordMask w1 rmm = makeWordMask w2 rmm := by
  apply Nat.eq_of_testBit_eq
  intro i
  rw [testBit_makeWordMask, testBit_makeWordMask]
  by_cases h1 : w1.any (fun r => (lookupRuneMask rmm r).testBit i) = true
  · obtain ⟨x, hx, hpx⟩ := List.any_eq_true.mp h1
    rw [h1]
    exact (List.any_eq_true.mpr ⟨x, (h x).mp hx, hpx⟩).symm
  · rw [Bool.not_eq_true] at h1
    rw [h1]
    symm
    apply List.any_eq_false.mpr
    intro x hx
    exact List.any_eq_false.mp h1 x ((h x).mpr hx)

theorem nodup_all_eq_length_le_one {α : Type} {L : List α} (hnd : L.Nodup)
    (h : ∀ x ∈ L, ∀ y ∈ L, x = y) : L.length ≤ 1 := by
  cases L with
  | nil => simp
  | cons x t =>
    cases t with
    | nil => simp
    | cons y r =>
      exfalso
      have hxy : x = y := h x (by simp) y (by simp)
      have := (List.nodup_cons.mp hnd).1
      exact this (by simp [hxy])

/-- C1: for every word set whose distinct characters number at most 64,
the weight returned by `findTopWeightAndPairs` bounds the union popcount
of every unordered pair of distinct masks appearing in `wordsByMasks`,
and when at least two distinct masks exist the maximum is attained by
some returned pair. -/
theorem claim_C1 (words : List Word) (hN : (wordSetRunes words).length ≤ 64) :
    (∀ a ∈ (makeWordSet words).wordsByMasks.map Prod.fst,
        ∀ b ∈ (makeWordSet words).wordsByMasks.map Prod.fst, a ≠ b →
          popcount (a ||| b) ≤ (findTopWeightAndPairs (makeWordSet words)).1)
    ∧ (∀ a ∈ (makeWordSet words).wordsByMasks.map Prod.fst,
        ∀ b ∈ (makeWordSet words).wordsByMasks.map Prod.fst, a ≠ b →
          ∃ pr ∈ (findTopWeightAndPairs (makeWordSet words)).2,
            popcount (pr.1 ||| pr.2) = (findTopWeightAndPairs (makeWordSet words)).1) := by
  have hinv := makeWordSet_inv words
  have hmem : ∀ m : Nat, m ∈ (makeWordSet words).wordsByMasks.map Prod.fst
      ↔ m ∈ masksList (makeWordSet words) := fun m => List.Perm.mem_iff hinv.2.2
  constructor
  · intro a ha b hb hne
    exact findTop_le _ hinv ((hmem a).mp ha) ((hmem b).mp hb) hne
  · intro a ha b hb hne
    exact findTop_attained _ hinv
      (two_le_length_of_mem_ne ((hmem a).mp ha) ((hmem b).mp hb) hne)

/-- C2: over any word set with at most 64 distinct characters, the pair
list returned by `findTopWeightAndPairs` contains every unordered pair
of distinct masks attaining the returned weight, only pairs attaining
it, and each unordered pair at most once. -/
theorem claim_C2 (words : List Word) (hN : (wordSetRunes words).length ≤ 64) :
    (∀ a b : Nat, a ∈ (makeWordSet words).wordsByMasks.map Prod.fst →
        b ∈ (makeWordSet words).wordsByMasks.map Prod.fst → a ≠ b →
        popcount (a ||| b) = (findTopWeightAndPairs (makeWordSet words)).1 →
        ((a, b) ∈ (findTopWeightAndPairs (makeWordSet words)).2
          ∨ (b, a) ∈ (findTopWeightAndPairs (makeWordSet words)).2))
    ∧ (∀ pr ∈ (findTopWeightAndPairs (makeWordSet words)).2,
        pr.1 ∈ (makeWordSet words).wordsByMasks.map Prod.fst
          ∧ pr.2 ∈ (makeWordSet words).wordsByMasks.map Prod.fst
          ∧ pr.1 ≠ pr.2
          ∧ popcount (pr.1 ||| pr.2) = (findTopWeightAndPairs (makeWordSet words)).1)
    ∧ (findTopWeightAndPairs (makeWordSet words)).2.Nodup
    ∧ (∀ pr ∈ (findTopWeightAndPairs (makeWordSet words)).2,
        (pr.2, pr.1) ∉ (findTopWeightAndPairs (makeWordSet words)).2) := by
  have hinv := makeWordSet_inv words
  have hmem : ∀ m : Nat, m ∈ (makeWordSet words).wordsByMasks.map Prod.fst
      ↔ m ∈ masksList (makeWordSet words) := fun m => List.Perm.mem_iff hinv.2.2
  refine ⟨?_, ?_, findTop_pairs_nodup _ hinv, ?_⟩
  · intro a b ha hb hne hw
    rcases allPairs_cover (masksList (makeWordSet words)) a b ((hmem a).mp ha)
        ((hmem b).mp hb) hne with h | h
    · exact Or.inl ((findTop_pairs_iff _ hinv _).mpr ⟨h, hw⟩)
    · refine Or.inr ((findTop_pairs_iff _ hinv _).mpr ⟨h, ?_⟩)
      show popcount (b ||| a) = _
      rw [Nat.lor_comm]
      exact hw
  · intro pr hpr
    obtain ⟨hap, hw⟩ := (findTop_pairs_iff _ hinv _).mp hpr
    have hap2 : (pr.1, pr.2) ∈ allPairs (masksList (makeWordSet words)) := by
      rw [Prod.mk.eta]
      exact hap
    obtain ⟨h1, h2⟩ := mem_allPairs_sub _ pr.1 pr.2 hap2
    exact ⟨(hmem pr.1).mpr h1, (hmem pr.2).mpr h2,
      mem_allPairs_ne _ hinv.2.1 pr.1 pr.2 hap2, hw⟩
  · intro pr hpr hswap
    have hap2 : (pr.1, pr.2) ∈ (findTopWeightAndPairs (makeWordSet words)).2 := by
      rw [Prod.mk.eta]
      exact hpr
    exact findTop_pairs_no_swap _ hinv hap2 hswap

/-- C3: on every input word set, the search with the weight-sum pruning
step returns exactly the same result as the exhaustive search with the
pruning step removed. -/
theorem claim_C3 (words : List Word) :
    findTopWeightAndPairs (makeWordSet words)
      = findTopWeightAndPairsNoPrune (makeWordSet words) := by
  have hinv := makeWordSet_inv words
  rw [findTop_eq_runPairs _ hinv, findTopNP_eq_runPairs _ hinv.2.1]

/-- C5: fewer than two distinct masks (zero or one distinct word, or all
words sharing one identical character set) make `findTopWeightAndPairs`
return weight 0 and an empty pair list, and a mask is never paired with
itself. -/
theorem claim_C5 (words : List Word) :
    (words.length ≤ 1 → findTopWeightAndPairs (makeWordSet words) = (0, []))
    ∧ ((∀ w1 ∈ words, ∀ w2 ∈ words, ∀ c : Nat, c ∈ w1 ↔ c ∈ w2) →
        findTopWeightAndPairs (makeWordSet words) = (0, []))
    ∧ (((makeWordSet words).wordsByMasks.map Prod.fst).length ≤ 1 →
        findTopWeightAndPairs (makeWordSet words) = (0, []))
    ∧ (∀ pr ∈ (findTopWeightAndPairs (makeWordSet words)).2, pr.1 ≠ pr.2) := by
  have hinv := makeWordSet_inv words
  have hlen : (masksList (makeWordSet words)).length
      = ((makeWordSet words).wordsByMasks.map Prod.fst).length :=
    (List.Perm.length_eq hinv.2.2).symm
  have hsmall : ((makeWordSet words).wordsByMasks.map Prod.fst).length ≤ 1 →
      findTopWeightAndPairs (makeWordSet words) = (0, []) := by
    intro h
    exact findTop_small _ hinv (by omega)
  refine ⟨?_, ?_, hsmall, ?_⟩
  · intro h
    apply hsmall
    cases words with
    | nil => simp [makeWordSet, makeWordSetR, groupByKey]
    | cons w t =>
      cases t with
      | nil => rfl
      | cons w2 t2 => simp at h
  · intro hsame
    apply hsmall
    apply nodup_all_eq_length_le_one
    · exact (groupByKey_groupsOf _ words).1.1
    · intro x hx y hy
      obtain ⟨wx, hwx, hex⟩ := (mem_wbm_keys_iff (wordSetRunes words) words x).mp hx
      obtain ⟨wy, hwy, hey⟩ := (mem_wbm_keys_iff (wordSetRunes words) words y).mp hy
      rw [← hex, ← hey]
      exact makeWordMask_congr _ wx wy (hsame wx hwx wy hwy)
  · intro pr hpr
    have hap := ((findTop_pairs_iff _ hinv _).mp hpr).1
    have hap2 : (pr.1, pr.2) ∈ allPairs (masksList (makeWordSet words)) := by
      rw [Prod.mk.eta]
      exact hap
    exact mem_allPairs_ne _ hinv.2.1 pr.1 pr.2 hap2

/-- C6: for every 64-bit mask, `popcount` returns the number of set bits
of its binary representation; in particular `popcount 0 = 0` and the
all-ones mask has popcount 64. -/
theorem claim_C6 :
    (∀ m : Nat, m < 2 ^ 64 → popcount m = bitCount m)
    ∧ popcount 0 = 0 ∧ popcount (2 ^ 64 - 1) = 64 :=
  ⟨fun _ hm => popcount_eq_bitCount hm, by decide, by decide⟩

theorem claim_C6_witness : 967 < 2 ^ 64 ∧ popcount 967 = bitCount 967 :=
  ⟨by decide, claim_C6.1 967 (by decide)⟩

/-- C7: the mask of a word depends only on the set of its distinct
characters, for any fixed character-to-bit mapping, and recomputing the
mask of the same word yields the identical result. -/
theorem claim_C7 (rmm : List (Nat × Nat)) (w1 w2 : Word)
    (h : ∀ c : Nat, c ∈ w1 ↔ c ∈ w2) :
    makeWordMask w1 rmm = makeWordMask w2 rmm
      ∧ makeWordMask w1 rmm = makeWordMask w1 rmm :=
  ⟨makeWordMask_congr rmm w1 w2 h, rfl⟩

theorem claim_C7_witness :
    (∀ c : Nat, c ∈ ([97, 97, 98] : Word) ↔ c ∈ ([98, 97] : Word))
      ∧ makeWordMask [97, 97, 98] [(97, 1), (98, 2)]
          = makeWordMask [98, 97] [(97, 1), (98, 2)] :=
  ⟨by intro c; simp; omega,
    (claim_C7 [(97, 1), (98, 2)] [97, 97, 98] [98, 97] (by intro c; simp; omega)).1⟩

/-- C8: on the corpus cat, dog, fish the pipeline returns maximum weight
7 and exactly the word pairs (cat, fish) and (dog, fish). -/
theorem claim_C8 :
    (findTopWeightAndPairs (makeWordSet cdfWords)).1 = 7
    ∧ (findWordPairsByMasks (makeWordSet cdfWords)
        (findTopWeightAndPairs (makeWordSet cdfWords)).2).length = 2
    ∧ ((catWord, fishWord) ∈ findWordPairsByMasks (makeWordSet cdfWords)
          (findTopWeightAndPairs (makeWordSet cdfWords)).2
        ∨ (fishWord, catWord) ∈ findWordPairsByMasks (makeWordSet cdfWords)
          (findTopWeightAndPairs (makeWordSet cdfWords)).2)
    ∧ ((dogWord, fishWord) ∈ findWordPairsByMasks (makeWordSet cdfWords)
          (findTopWeightAndPairs (makeWordSet cdfWords)).2
        ∨ (fishWord, dogWord) ∈ findWordPairsByMasks (makeWordSet cdfWords)
          (findTopWeightAndPairs (makeWordSet cdfWords)).2) := by
  decide

/-- C4 (evaluation at the failing input): with 65 distinct characters
the code does not fail; `1 << 64` silently truncates to mask `0`, so the
distinct character sets of the words `[0]` and `[0, 64]` collide on mask
`1` and the search structures are built over the merged groups. -/
theorem claim_C4 :
    64 < (wordSetRunes overflowWords).length
    ∧ makeWordMask [0, 64] (runeMaskMapOf (wordSetRunes overflowWords))
        = makeWordMask [0] (runeMaskMapOf (wordSetRunes overflowWords))
    ∧ lookupRuneMask (runeMaskMapOf (wordSetRunes overflowWords)) 64 = 0
    ∧ lookupGroup (makeWordSet overflowWords).wordsByMasks 1 = [[0], [0, 64]]
    ∧ (makeWordSet overflowWords).wordsByMasks.length = 65 := by
  decide

theorem claim_C1_witness :
    (wordSetRunes cdfWords).length ≤ 64
    ∧ popcount (7 ||| 960) ≤ (findTopWeightAndPairs (makeWordSet cdfWords)).1 :=
  ⟨by decide, (claim_C1 cdfWords (by decide)).1 7 (by decide) 960 (by decide) (by decide)⟩

theorem claim_C2_witness :
    (wordSetRunes cdfWords).length ≤ 64
    ∧ ((7, 960) ∈ (findTopWeightAndPairs (makeWordSet cdfWords)).2
        ∨ (960, 7) ∈ (findTopWeightAndPairs (makeWordSet cdfWords)).2) :=
  ⟨by decide,
    (claim_C2 cdfWords (by decide)).1 7 960 (by decide) (by decide) (by decide) (by decide)⟩

theorem claim_C5_witness :
    (∀ w1 ∈ ([[97, 98], [98, 97]] : List Word), ∀ w2 ∈ ([[97, 98], [98, 97]] : List Word),
        ∀ c : Nat, c ∈ w1 ↔ c ∈ w2)
    ∧ findTopWeightAndPairs (makeWordSet [[97, 98], [98, 97]]) = (0, []) := by
  have hsame : ∀ w1 ∈ ([[97, 98], [98, 97]] : List Word),
      ∀ w2 ∈ ([[97, 98], [98, 97]] : List Word), ∀ c : Nat, c ∈ w1 ↔ c ∈ w2 := by
    intro w1 h1 w2 h2 c
    have e1 : w1 = [97, 98] ∨ w1 = [98, 97] := by simpa using h1
    have e2 : w2 = [97, 98] ∨ w2 = [98, 97] := by simpa using h2
    rcases e1 with e1 | e1 <;> rcases e2 with e2 | e2 <;> subst e1 <;> subst e2 <;> simp <;>
      omega
  exact ⟨hsame, (claim_C5 [[97, 98], [98, 97]]).2.1 hsame⟩

/-! ### The token reader -/

theorem readWordSet_mono (lower : Nat → Nat) (whitemap : List Nat) :
    ∀ (tokens : List (List Nat)) (acc : List Word) (w : Word), w ∈ acc →
      w ∈ tokens.foldl (fun acc tok =>
        if tok = [] then acc
        else
          let w2 := (tok.map lower).filter (fun r => decide (r ∈ whitemap))
          if w2 ∈ acc then acc else acc ++ [w2]) acc := by
  intro tokens
  induction tokens with
  | nil => intro acc w h; exact h
  | cons t ts ih =>
    intro acc w h
    simp only [List.foldl_cons]
    apply ih
    by_cases ht : t = []
    · rw [if_pos ht]; exact h
    · rw [if_neg ht]
      show w ∈ (if ((t.map lower).filter (fun r => decide (r ∈ whitemap))) ∈ acc then acc
        else acc ++ [(t.map lower).filter (fun r => decide (r ∈ whitemap))])
      split
      · exact h
      · exact List.mem_append.mpr (Or.inl h)

theorem readWordSet_token_mem (lower : Nat → Nat) (whitemap : List Nat) :
    ∀ (tokens : List (List Nat)) (acc : List Word) (tok : List Nat), tok ∈ tokens → tok ≠ [] →
      ((tok.map lower).filter (fun r => decide (r ∈ whitemap)))
        ∈ tokens.foldl (fun acc tok =>
            if tok = [] then acc
            else
              let w2 := (tok.map lower).filter (fun r => decide (r ∈ whitemap))
              if w2 ∈ acc then acc else acc ++ [w2]) acc := by
  intro tokens
  induction tokens with
  | nil => intro acc tok h; exact absurd h (by simp)
  | cons t ts ih =>
    intro acc tok h hne
    rcases List.mem_cons.mp h with h | h
    · subst h
      simp only [List.foldl_cons, if_neg hne]
      apply readWordSet_mono
      show ((tok.map lower).filter (fun r => decide (r ∈ whitemap)))
        ∈ (if ((tok.map lower).filter (fun r => decide (r ∈ whitemap))) ∈ acc then acc
            else acc ++ [(tok.map lower).filter (fun r => decide (r ∈ whitemap))])
      split
      · assumption
      · exact List.mem_append.mpr (Or.inr (by simp))
    · exact ih _ tok h hne

/-- C10: a nonempty source token with no whitelisted characters puts the
empty word into the word set; the empty word gets mask 0 with weight 0,
and that mask enters both search indexes like any other distinct mask. -/
theorem claim_C10 (lower : Nat → Nat) (whitemap : List Nat) (tokens : List (List Nat))
    (tok : List Nat) (htok : tok ∈ tokens) (hne : tok ≠ [])
    (hfil : (tok.map lower).filter (fun r => decide (r ∈ whitemap)) = []) :
    ([] : Word) ∈ readWordSetFromTokens lower whitemap tokens
    ∧ (∀ rmm : List (Nat × Nat), makeWordMask [] rmm = 0)
    ∧ popcount 0 = 0
    ∧ (0 : Nat) ∈ (makeWordSet (readWordSetFromTokens lower whitemap tokens)).wordsByMasks.map
        Prod.fst
    ∧ ∃ cls ∈ (makeWordSet (readWordSetFromTokens lower whitemap tokens)).wordMasksPerWeight,
        cls.1 = 0 ∧ (0 : Nat) ∈ cls.2 := by
  have hmem : ([] : Word) ∈ readWordSetFromTokens lower whitemap tokens := by
    rw [← hfil]
    exact readWordSet_token_mem lower whitemap tokens [] tok htok hne
  have hkey : (0 : Nat) ∈ (makeWordSet (readWordSetFromTokens lower whitemap tokens)).wordsByMasks.map Prod.fst := by
    apply (mem_wbm_keys_iff _ _ 0).mpr
    exact ⟨[], hmem, rfl⟩
  refine ⟨hmem, fun _ => rfl, by decide, hkey, ?_⟩
  obtain ⟨cls, hcls, hc1, hc2⟩ := mem_perWeight_exists _ _ 0 hkey
  refine ⟨cls, hcls, ?_, hc2⟩
  rw [hc1]
  decide

theorem claim_C10_witness :
    ([33] : List Nat) ≠ []
    ∧ ([] : Word) ∈ readWordSetFromTokens (fun c => c) [97] [[33]] :=
  ⟨by decide, (claim_C10 (fun c => c) [97] [[33]] [33] (by decide) (by decide) (by decide)).1⟩

/-! ### Rune enumerations and the bijection-independent pair weight -/

theorem dedupFold_nodup : ∀ (w : List Nat) (acc : List Nat), acc.Nodup →
    (w.foldl (fun acc2 r => if r ∈ acc2 then acc2 else acc2 ++ [r]) acc).Nodup := by
  intro w
  induction w with
  | nil => intro acc h; exact h
  | cons r w ih =>
    intro acc h
    simp only [List.foldl_cons]
    apply ih
    split
    · exact h
    case isFalse hr =>
      rw [List.nodup_append]
      refine ⟨h, by simp, ?_⟩
      intro a ha hb
      rw [List.mem_singleton] at hb
      subst hb
      exact hr ha

theorem dedupFold_mem : ∀ (w : List Nat) (acc : List Nat) (r : Nat),
    (r ∈ w.foldl (fun acc2 r => if r ∈ acc2 then acc2 else acc2 ++ [r]) acc
      ↔ r ∈ acc ∨ r ∈ w) := by
  intro w
  induction w with
  | nil => intro acc r; simp
  | cons x w ih =>
    intro acc r
    simp only [List.foldl_cons]
    rw [ih]
    by_cases hx : x ∈ acc
    · rw [if_pos hx]
      constructor
      · rintro (h | h)
        · exact Or.inl h
        · exact Or.inr (by simp [h])
      · rintro (h | h)
        · exact Or.inl h
        · rcases List.mem_cons.mp h with h | h
          · exact Or.inl (h ▸ hx)
          · exact Or.inr h
    · rw [if_neg hx]
      simp only [List.mem_append, List.mem_singleton, List.mem_cons]
      tauto

theorem wordSetRunes_nodup (words : List Word) : (wordSetRunes words).Nodup := by
  unfold wordSetRunes
  suffices h : ∀ (ws : List Word) (acc : List Nat), acc.Nodup →
      (ws.foldl (fun acc w =>
        w.foldl (fun acc2 r => if r ∈ acc2 then acc2 else acc2 ++ [r]) acc) acc).Nodup by
    exact h words [] (by simp)
  intro ws
  induction ws with
  | nil => intro acc h; exact h
  | cons w ws ih =>
    intro acc h
    exact ih _ (dedupFold_nodup w acc h)

theorem mem_wordSetRunes (words : List Word) (r : Nat) :
    r ∈ wordSetRunes words ↔ ∃ w ∈ words, r ∈ w := by
  unfold wordSetRunes
  suffices h : ∀ (ws : List Word) (acc : List Nat),
      (r ∈ ws.foldl (fun acc w =>
          w.foldl (fun acc2 r => if r ∈ acc2 then acc2 else acc2 ++ [r]) acc) acc
        ↔ r ∈ acc ∨ ∃ w ∈ ws, r ∈ w) by
    rw [h words []]
    simp
  intro ws
  induction ws with
  | nil => intro acc; simp
  | cons w ws ih =>
    intro acc
    simp only [List.foldl_cons]
    rw [ih, dedupFold_mem]
    constructor
    · rintro ((h | h) | h)
      · exact Or.inl h
      · exact Or.inr ⟨w, by simp, h⟩
      · obtain ⟨w2, hw2, hr⟩ := h
        exact Or.inr ⟨w2, by simp [hw2], hr⟩
    · rintro (h | ⟨w2, hw2, hr⟩)
      · exact Or.inl (Or.inl h)
      · rcases List.mem_cons.mp hw2 with h2 | h2
        · exact Or.inl (Or.inr (h2 ▸ hr))
        · exact Or.inr ⟨w2, h2, hr⟩

theorem lookupRuneMask_enumFrom : ∀ (runes : List Nat) (n : Nat) (r : Nat),
    lookupRuneMask ((runes.enumFrom n).map (fun p => (p.2, (1 <<< p.1) % 2 ^ 64))) r
      = if r ∈ runes then (1 <<< (n + runes.indexOf r)) % 2 ^ 64 else 0 := by
  intro runes
  induction runes with
  | nil => intro n r; simp [lookupRuneMask]
  | cons x rest ih =>
    intro n r
    show lookupRuneMask (((n, x) :: rest.enumFrom (n + 1)).map
      (fun p => (p.2, (1 <<< p.1) % 2 ^ 64))) r = _
    simp only [List.map_cons]
    by_cases hx : x = r
    · unfold lookupRuneMask
      rw [List.find?_cons_of_pos _ (by simp [hx])]
      rw [if_pos (by simp [hx]), List.indexOf_cons_eq rest hx]
      simp
    · unfold lookupRuneMask
      rw [List.find?_cons_of_neg _ (by simp [hx])]
      have h2 := ih (n + 1) r
      unfold lookupRuneMask at h2
      rw [h2]
      by_cases hr : r ∈ rest
      · rw [if_pos hr, if_pos (by simp [hr])]
        rw [List.indexOf_cons_ne _ hx]
        congr 2
        omega
      · rw [if_neg hr, if_neg (by simp [hx, hr]; intro h; exact absurd h.symm hx)]

theorem lookupRuneMask_runeMaskMapOf (runes : List Nat) (r : Nat) :
    lookupRuneMask (runeMaskMapOf runes) r
      = if r ∈ runes then (1 <<< (runes.indexOf r)) % 2 ^ 64 else 0 := by
  have h := lookupRuneMask_enumFrom runes 0 r
  unfold runeMaskMapOf
  rw [show runes.enum = runes.enumFrom 0 from rfl, h]
  simp

theorem lookupRuneMask_small {runes : List Nat} (hlen : runes.length ≤ 64) {r : Nat}
    (hr : r ∈ runes) :
    lookupRuneMask (runeMaskMapOf runes) r = 2 ^ (runes.indexOf r) := by
  rw [lookupRuneMask_runeMaskMapOf, if_pos hr, Nat.one_shiftLeft]
  have hidx : runes.indexOf r < 64 := lt_of_lt_of_le (List.indexOf_lt_length.mpr hr) hlen
  exact Nat.mod_eq_of_lt (Nat.pow_lt_pow_right (by norm_num) hidx)

theorem testBit_mask {runes : List Nat} (hlen : runes.length ≤ 64) {w : Word}
    (hsub : ∀ c ∈ w, c ∈ runes) (i : Nat) :
    ((makeWordMask w (runeMaskMapOf runes)).testBit i = true
      ↔ ∃ r ∈ w, runes.indexOf r = i) := by
  rw [testBit_makeWordMask, List.any_eq_true]
  constructor
  · rintro ⟨r, hr, hb⟩
    have hrr : r ∈ runes := hsub r hr
    rw [lookupRuneMask_small hlen hrr] at hb
    by_cases he : runes.indexOf r = i
    · exact ⟨r, hr, he⟩
    · rw [Nat.testBit_two_pow_of_ne he] at hb
      exact absurd hb (by simp)
  · rintro ⟨r, hr, he⟩
    refine ⟨r, hr, ?_⟩
    rw [lookupRuneMask_small hlen (hsub r hr), he]
    exact Nat.testBit_two_pow_self

theorem mask_eq_iff {runes : List Nat} (hnd : runes.Nodup) (hlen : runes.length ≤ 64)
    {w1 w2 : Word} (hs1 : ∀ c ∈ w1, c ∈ runes) (hs2 : ∀ c ∈ w2, c ∈ runes) :
    (makeWordMask w1 (runeMaskMapOf runes) = makeWordMask w2 (runeMaskMapOf runes)
      ↔ ∀ c : Nat, c ∈ w1 ↔ c ∈ w2) := by
  constructor
  · intro he c
    constructor
    · intro hc
      have hb : (makeWordMask w1 (runeMaskMapOf runes)).testBit (runes.indexOf c) = true :=
        (testBit_mask hlen hs1 _).mpr ⟨c, hc, rfl⟩
      rw [he] at hb
      obtain ⟨r, hr, hidx⟩ := (testBit_mask hlen hs2 _).mp hb
      have hrc : r = c := (List.indexOf_inj (hs2 r hr) (hs1 c hc)).mp hidx
      exact hrc ▸ hr
    · intro hc
      have hb : (makeWordMask w2 (runeMaskMapOf runes)).testBit (runes.indexOf c) = true :=
        (testBit_mask hlen hs2 _).mpr ⟨c, hc, rfl⟩
      rw [← he] at hb
      obtain ⟨r, hr, hidx⟩ := (testBit_mask hlen hs1 _).mp hb
      have hrc : r = c := (List.indexOf_inj (hs1 r hr) (hs2 c hc)).mp hidx
      exact hrc ▸ hr
  · exact fun h => makeWordMask_congr _ _ _ h

theorem countP_range_length (L : List Nat) (p : Nat → Bool) :
    (List.range L.length).countP (fun i => p (L.getD i 0)) = (L.filter p).length := by
  induction L with
  | nil => simp
  | cons x t ih =>
    have h1 : (x :: t).length = t.length + 1 := rfl
    rw [h1, List.range_succ_eq_map, List.countP_cons, List.countP_map]
    have hcomp : List.countP ((fun i => p ((x :: t).getD i 0)) ∘ Nat.succ) (List.range t.length)
        = List.countP (fun i => p (t.getD i 0)) (List.range t.length) := by
      apply List.countP_congr
      intro i _
      simp [Function.comp]
    rw [hcomp, ih, List.filter_cons]
    by_cases hp : p x
    · rw [if_pos hp]
      simp [hp]
    · rw [if_neg hp]
      simp [hp]

theorem exists_indexOf_iff {runes : List Nat} (hnd : runes.Nodup) {w : Word} {i : Nat}
    (hs : ∀ c ∈ w, c ∈ runes) (hi : i < runes.length) :
    ((∃ r ∈ w, runes.indexOf r = i) ↔ runes.getD i 0 ∈ w) := by
  constructor
  · rintro ⟨r, hr, he⟩
    have hrr := hs r hr
    have hlt : runes.indexOf r < runes.length := List.indexOf_lt_length.mpr hrr
    have hg : runes.getD i 0 = r := by
      rw [← he, List.getD_eq_getElem runes 0 hlt]
      have := List.indexOf_get hlt
      simpa using this
    rw [hg]
    exact hr
  · intro h
    refine ⟨runes.getD i 0, h, ?_⟩
    have hmem : runes.getD i 0 ∈ runes := by
      rw [List.getD_eq_getElem runes 0 hi]
      exact List.get_mem _ _ _
    have hlt : runes.indexOf (runes.getD i 0) < runes.length :=
      List.indexOf_lt_length.mpr hmem
    have hget : runes.get ⟨runes.indexOf (runes.getD i 0), hlt⟩ = runes.getD i 0 :=
      List.indexOf_get hlt
    have hget2 : runes.get ⟨i, hi⟩ = runes.getD i 0 := by
      rw [List.getD_eq_getElem runes 0 hi]
      simp
    have := (List.Nodup.get_inj_iff hnd).mp (hget.trans hget2.symm)
    exact congrArg Fin.val this

theorem popcount_or_masks {runes : List Nat} (hnd : runes.Nodup) (hlen : runes.length ≤ 64)
    {w1 w2 : Word} (hs1 : ∀ c ∈ w1, c ∈ runes) (hs2 : ∀ c ∈ w2, c ∈ runes) :
    popcount (makeWordMask w1 (runeMaskMapOf runes) ||| makeWordMask w2 (runeMaskMapOf runes))
      = jointWeight runes w1 w2 := by
  set m1 := makeWordMask w1 (runeMaskMapOf runes) with hm1e
  set m2 := makeWordMask w2 (runeMaskMapOf runes) with hm2e
  have hm1 : m1 < 2 ^ 64 := makeWordMask_lt w1 runes
  have hm2 : m2 < 2 ^ 64 := makeWordMask_lt w2 runes
  have hor := Nat.or_lt_two_pow hm1 hm2
  rw [popcount_eq_bitCount hor, bitCount_eq_countP 64 _ hor]
  obtain ⟨k, hk⟩ : ∃ k, 64 = runes.length + k := ⟨64 - runes.length, by omega⟩
  rw [hk, List.range_add, List.countP_append]
  have hzero : ((List.range k).map (fun x => runes.length + x)).countP
      (fun i => (m1 ||| m2).testBit i) = 0 := by
    apply List.countP_eq_zero.mpr
    intro i hi
    obtain ⟨j, _, hj⟩ := List.mem_map.mp hi
    intro hb
    rw [Nat.testBit_lor, Bool.or_eq_true] at hb
    rcases hb with hb | hb
    · obtain ⟨r, hr, he⟩ := (testBit_mask hlen hs1 i).mp hb
      have hlt : runes.indexOf r < runes.length := List.indexOf_lt_length.mpr (hs1 r hr)
      omega
    · obtain ⟨r, hr, he⟩ := (testBit_mask hlen hs2 i).mp hb
      have hlt : runes.indexOf r < runes.length := List.indexOf_lt_length.mpr (hs2 r hr)
      omega
  rw [hzero, Nat.add_zero]
  have hcong : (List.range runes.length).countP (fun i => (m1 ||| m2).testBit i)
      = (List.range runes.length).countP
          (fun i => decide (runes.getD i 0 ∈ w1 ∨ runes.getD i 0 ∈ w2)) := by
    apply List.countP_congr
    intro i hi
    rw [List.mem_range] at hi
    rw [Nat.testBit_lor, Bool.or_eq_true, decide_eq_true_eq]
    rw [testBit_mask hlen hs1 i, testBit_mask hlen hs2 i]
    rw [exists_indexOf_iff hnd hs1 hi, exists_indexOf_iff hnd hs2 hi]
  rw [hcong]
  have hfin : (List.range runes.length).countP
      (fun i => decide (runes.getD i 0 ∈ w1 ∨ runes.getD i 0 ∈ w2))
      = (runes.filter (fun c => decide (c ∈ w1 ∨ c ∈ w2))).length :=
    countP_range_length runes (fun c => decide (c ∈ w1 ∨ c ∈ w2))
  rw [hfin]
  rfl

theorem jointWeight_perm {runes1 runes2 : List Nat} (h : runes1.Perm runes2) (w1 w2 : Word) :
    jointWeight runes1 w1 w2 = jointWeight runes2 w1 w2 :=
  (List.Perm.filter _ h).length_eq

theorem jointWeight_comm (runes : List Nat) (w1 w2 : Word) :
    jointWeight runes w1 w2 = jointWeight runes w2 w1 := by
  unfold jointWeight
  congr 1
  apply List.filter_congr
  intro c _
  exact decide_eq_decide.mpr or_comm

theorem foldl_append_singleton {α β : Type} (g : β → α) :
    ∀ (l : List β) (acc : List α), l.foldl (fun a x => a ++ [g x]) acc = acc ++ l.map g := by
  intro l
  induction l with
  | nil => intro acc; simp
  | cons x l ih =>
    intro acc
    simp only [List.foldl_cons, List.map_cons]
    rw [ih]
    simp

theorem foldl_append_fun {α β : Type} (g : β → List α) :
    ∀ (l : List β) (acc : List α), l.foldl (fun a x => a ++ g x) acc = acc ++ l.flatMap g := by
  intro l
  induction l with
  | nil => intro acc; simp
  | cons x l ih =>
    intro acc
    simp only [List.foldl_cons, List.flatMap_cons]
    rw [ih]
    simp

theorem findWordPairsByMasks_eq (ws : WordSet) (mps : List (Nat × Nat)) :
    findWordPairsByMasks ws mps
      = mps.flatMap (fun mp => (lookupGroup ws.wordsByMasks mp.1).flatMap
          (fun wa => (lookupGroup ws.wordsByMasks mp.2).map (fun wb => (wa, wb)))) := by
  unfold findWordPairsByMasks
  have hmid : ∀ (mp : Nat × Nat) (acc : List (Word × Word)),
      (lookupGroup ws.wordsByMasks mp.1).foldl (fun acc2 wa =>
        (lookupGroup ws.wordsByMasks mp.2).foldl (fun acc3 wb => acc3 ++ [(wa, wb)]) acc2) acc
      = acc ++ (lookupGroup ws.wordsByMasks mp.1).flatMap
          (fun wa => (lookupGroup ws.wordsByMasks mp.2).map (fun wb => (wa, wb))) := by
    intro mp acc
    have hext := List.foldl_ext
      (fun acc2 wa => (lookupGroup ws.wordsByMasks mp.2).foldl
        (fun acc3 wb => acc3 ++ [(wa, wb)]) acc2)
      (fun acc2 wa => acc2 ++ (lookupGroup ws.wordsByMasks mp.2).map (fun wb => (wa, wb)))
      acc (l := lookupGroup ws.wordsByMasks mp.1)
      (fun a wa _ => foldl_append_singleton _ _ a)
    rw [hext]
    exact foldl_append_fun _ _ acc
  have hout := List.foldl_ext
    (fun acc mp => (lookupGroup ws.wordsByMasks mp.1).foldl (fun acc2 wa =>
      (lookupGroup ws.wordsByMasks mp.2).foldl (fun acc3 wb => acc3 ++ [(wa, wb)]) acc2) acc)
    (fun acc mp => acc ++ (lookupGroup ws.wordsByMasks mp.1).flatMap
      (fun wa => (lookupGroup ws.wordsByMasks mp.2).map (fun wb => (wa, wb))))
    ([] : List (Word × Word)) (l := mps)
    (fun a mp _ => hmid mp a)
  rw [hout]
  have := foldl_append_fun (fun mp : Nat × Nat => (lookupGroup ws.wordsByMasks mp.1).flatMap
    (fun wa => (lookupGroup ws.wordsByMasks mp.2).map (fun wb => (wa, wb)))) mps []
  rw [this]
  simp

theorem mem_findWordPairs (ws : WordSet) (mps : List (Nat × Nat)) (wa wb : Word) :
    ((wa, wb) ∈ findWordPairsByMasks ws mps
      ↔ ∃ mp ∈ mps, wa ∈ lookupGroup ws.wordsByMasks mp.1
          ∧ wb ∈ lookupGroup ws.wordsByMasks mp.2) := by
  rw [findWordPairsByMasks_eq]
  simp only [List.mem_flatMap, List.mem_map, Prod.mk.injEq]
  constructor
  · rintro ⟨mp, hmp, wa2, hwa2, wb2, hwb2, he1, he2⟩
    subst he1
    subst he2
    exact ⟨mp, hmp, hwa2, hwb2⟩
  · rintro ⟨mp, hmp, hwa, hwb⟩
    exact ⟨mp, hmp, wa, hwa, wb, hwb, rfl, rfl⟩

theorem top_word_bound {runes : List Nat} {words : List Word}
    (hnd : runes.Nodup) (hlen : runes.length ≤ 64)
    (hsub : ∀ w ∈ words, ∀ c ∈ w, c ∈ runes)
    {wa wb : Word} (hwa : wa ∈ words) (hwb : wb ∈ words)
    (hne : ¬(∀ c : Nat, c ∈ wa ↔ c ∈ wb)) :
    jointWeight runes wa wb ≤ (findTopWeightAndPairs (makeWordSetR runes words)).1 := by
  have hinv := makeWordSetR_inv runes words
  have hma : makeWordMask wa (runeMaskMapOf runes) ∈ masksList (makeWordSetR runes words) :=
    (mem_masksList_iff runes words _).mpr ⟨wa, hwa, rfl⟩
  have hmb : makeWordMask wb (runeMaskMapOf runes) ∈ masksList (makeWordSetR runes words) :=
    (mem_masksList_iff runes words _).mpr ⟨wb, hwb, rfl⟩
  have hmne : makeWordMask wa (runeMaskMapOf runes) ≠ makeWordMask wb (runeMaskMapOf runes) :=
    fun h => hne ((mask_eq_iff hnd hlen (hsub wa hwa) (hsub wb hwb)).mp h)
  have hle := findTop_le _ hinv hma hmb hmne
  rwa [popcount_or_masks hnd hlen (hsub wa hwa) (hsub wb hwb)] at hle

theorem top_word_attained {runes : List Nat} {words : List Word}
    (hnd : runes.Nodup) (hlen : runes.length ≤ 64)
    (hsub : ∀ w ∈ words, ∀ c ∈ w, c ∈ runes) :
    (findTopWeightAndPairs (makeWordSetR runes words)).1 = 0
      ∨ ∃ wa ∈ words, ∃ wb ∈ words, ¬(∀ c : Nat, c ∈ wa ↔ c ∈ wb)
          ∧ jointWeight runes wa wb = (findTopWeightAndPairs (makeWordSetR runes words)).1 := by
  have hinv := makeWordSetR_inv runes words
  by_cases h2 : 2 ≤ (masksList (makeWordSetR runes words)).length
  · right
    obtain ⟨pr, hpr, hw⟩ := findTop_attained _ hinv h2
    obtain ⟨hap, _⟩ := (findTop_pairs_iff _ hinv _).mp hpr
    have hap2 : (pr.1, pr.2) ∈ allPairs (masksList (makeWordSetR runes words)) := by
      rw [Prod.mk.eta]
      exact hap
    obtain ⟨h1m, h2m⟩ := mem_allPairs_sub _ _ _ hap2
    have hnem := mem_allPairs_ne _ hinv.2.1 _ _ hap2
    obtain ⟨wa, hwa, hea⟩ := (mem_masksList_iff runes words _).mp h1m
    obtain ⟨wb, hwb, heb⟩ := (mem_masksList_iff runes words _).mp h2m
    refine ⟨wa, hwa, wb, hwb, ?_, ?_⟩
    · intro hsame
      apply hnem
      rw [← hea, ← heb]
      exact makeWordMask_congr _ wa wb hsame
    · rw [← popcount_or_masks hnd hlen (hsub wa hwa) (hsub wb hwb), hea, heb]
      exact hw
  · left
    have hres := findTop_small _ hinv (by omega)
    rw [hres]

theorem pairIn_iff {runes : List Nat} {words : List Word}
    (hnd : runes.Nodup) (hlen : runes.length ≤ 64)
    (hsub : ∀ w ∈ words, ∀ c ∈ w, c ∈ runes) (wa wb : Word) :
    (((wa, wb) ∈ findWordPairsByMasks (makeWordSetR runes words)
        (findTopWeightAndPairs (makeWordSetR runes words)).2
      ∨ (wb, wa) ∈ findWordPairsByMasks (makeWordSetR runes words)
        (findTopWeightAndPairs (makeWordSetR runes words)).2)
      ↔ (wa ∈ words ∧ wb ∈ words ∧ ¬(∀ c : Nat, c ∈ wa ↔ c ∈ wb)
          ∧ jointWeight runes wa wb = (findTopWeightAndPairs (makeWordSetR runes words)).1)) := by
  have hinv := makeWordSetR_inv runes words
  constructor
  · intro h
    have key : ∀ (x y : Word), (x, y) ∈ findWordPairsByMasks (makeWordSetR runes words)
        (findTopWeightAndPairs (makeWordSetR runes words)).2 →
        x ∈ words ∧ y ∈ words ∧ ¬(∀ c : Nat, c ∈ x ↔ c ∈ y)
          ∧ jointWeight runes x y = (findTopWeightAndPairs (makeWordSetR runes words)).1 := by
      intro x y hxy
      obtain ⟨mp, hmp, hga, hgb⟩ := (mem_findWordPairs _ _ x y).mp hxy
      obtain ⟨hxw, hxm⟩ := (mem_wbm_group_iff runes words mp.1 x).mp hga
      obtain ⟨hyw, hym⟩ := (mem_wbm_group_iff runes words mp.2 y).mp hgb
      obtain ⟨hap, hwt⟩ := (findTop_pairs_iff _ hinv mp).mp hmp
      have hap2 : (mp.1, mp.2) ∈ allPairs (masksList (makeWordSetR runes words)) := by
        rw [Prod.mk.eta]
        exact hap
      have hnem := mem_allPairs_ne _ hinv.2.1 _ _ hap2
      refine ⟨hxw, hyw, ?_, ?_⟩
      · intro hsame
        apply hnem
        rw [← hxm, ← hym]
        exact makeWordMask_congr _ x y hsame
      · rw [← popcount_or_masks hnd hlen (hsub x hxw) (hsub y hyw), hxm, hym]
        exact hwt
    rcases h with h | h
    · exact key wa wb h
    · obtain ⟨h1, h2, h3, h4⟩ := key wb wa h
      refine ⟨h2, h1, ?_, ?_⟩
      · intro hsame
        exact h3 (fun c => (hsame c).symm)
      · rw [jointWeight_comm]
        exact h4
  · rintro ⟨hwa, hwb, hne, hjw⟩
    have hma : makeWordMask wa (runeMaskMapOf runes) ∈ masksList (makeWordSetR runes words) :=
      (mem_masksList_iff runes words _).mpr ⟨wa, hwa, rfl⟩
    have hmb : makeWordMask wb (runeMaskMapOf runes) ∈ masksList (makeWordSetR runes words) :=
      (mem_masksList_iff runes words _).mpr ⟨wb, hwb, rfl⟩
    have hmne : makeWordMask wa (runeMaskMapOf runes) ≠ makeWordMask wb (runeMaskMapOf runes) :=
      fun h => hne ((mask_eq_iff hnd hlen (hsub wa hwa) (hsub wb hwb)).mp h)
    have hwt : popcount (makeWordMask wa (runeMaskMapOf runes)
        ||| makeWordMask wb (runeMaskMapOf runes))
        = (findTopWeightAndPairs (makeWordSetR runes words)).1 := by
      rw [popcount_or_masks hnd hlen (hsub wa hwa) (hsub wb hwb)]
      exact hjw
    rcases allPairs_cover _ _ _ hma hmb hmne with hc | hc
    · left
      apply (mem_findWordPairs _ _ wa wb).mpr
      refine ⟨(makeWordMask wa (runeMaskMapOf runes), makeWordMask wb (runeMaskMapOf runes)),
        (findTop_pairs_iff _ hinv _).mpr ⟨hc, ?_⟩,
        (mem_wbm_group_iff runes words _ wa).mpr ⟨hwa, rfl⟩,
        (mem_wbm_group_iff runes words _ wb).mpr ⟨hwb, rfl⟩⟩
      exact hwt
    · right
      apply (mem_findWordPairs _ _ wb wa).mpr
      refine ⟨(makeWordMask wb (runeMaskMapOf runes), makeWordMask wa (runeMaskMapOf runes)),
        (findTop_pairs_iff _ hinv _).mpr ⟨hc, ?_⟩,
        (mem_wbm_group_iff runes words _ wb).mpr ⟨hwb, rfl⟩,
        (mem_wbm_group_iff runes words _ wa).mpr ⟨hwa, rfl⟩⟩
      show popcount (makeWordMask wb (runeMaskMapOf runes)
        ||| makeWordMask wa (runeMaskMapOf runes)) = _
      rw [Nat.lor_comm]
      exact hwt

/-- C9: the computation is deterministic: permuting the input word list
and choosing a different character-to-bit bijection changes neither the
maximum weight nor the set of unordered word pairs. -/
theorem claim_C9 (words1 words2 : List Word) (runes1 runes2 : List Nat)
    (hwp : words1.Perm words2)
    (hr1 : runes1.Perm (wordSetRunes words1))
    (hr2 : runes2.Perm (wordSetRunes words2))
    (hlen : (wordSetRunes words1).length ≤ 64) :
    (findTopWeightAndPairs (makeWordSetR runes1 words1)).1
        = (findTopWeightAndPairs (makeWordSetR runes2 words2)).1
    ∧ ∀ wa wb : Word,
        (((wa, wb) ∈ findWordPairsByMasks (makeWordSetR runes1 words1)
            (findTopWeightAndPairs (makeWordSetR runes1 words1)).2)
          ∨ ((wb, wa) ∈ findWordPairsByMasks (makeWordSetR runes1 words1)
            (findTopWeightAndPairs (makeWordSetR runes1 words1)).2))
        ↔ (((wa, wb) ∈ findWordPairsByMasks (makeWordSetR runes2 words2)
            (findTopWeightAndPairs (makeWordSetR runes2 words2)).2)
          ∨ ((wb, wa) ∈ findWordPairsByMasks (makeWordSetR runes2 words2)
            (findTopWeightAndPairs (makeWordSetR runes2 words2)).2)) := by
  have hwsr : (wordSetRunes words1).Perm (wordSetRunes words2) := by
    apply (List.perm_ext_iff_of_nodup (wordSetRunes_nodup _) (wordSetRunes_nodup _)).mpr
    intro r
    rw [mem_wordSetRunes, mem_wordSetRunes]
    constructor
    · rintro ⟨w, hw, hr⟩
      exact ⟨w, hwp.mem_iff.mp hw, hr⟩
    · rintro ⟨w, hw, hr⟩
      exact ⟨w, hwp.mem_iff.mpr hw, hr⟩
  have hr12 : runes1.Perm runes2 := hr1.trans (hwsr.trans hr2.symm)
  have hnd1 : runes1.Nodup := (List.Perm.nodup_iff hr1).mpr (wordSetRunes_nodup words1)
  have hnd2 : runes2.Nodup := (List.Perm.nodup_iff hr2).mpr (wordSetRunes_nodup words2)
  have hlen1 : runes1.length ≤ 64 := by rw [hr1.length_eq]; exact hlen
  have hlen2 : runes2.length ≤ 64 := by rw [← hr12.length_eq]; exact hlen1
  have hsub1 : ∀ w ∈ words1, ∀ c ∈ w, c ∈ runes1 := fun w hw c hc =>
    hr1.mem_iff.mpr ((mem_wordSetRunes words1 c).mpr ⟨w, hw, hc⟩)
  have hsub2 : ∀ w ∈ words2, ∀ c ∈ w, c ∈ runes2 := fun w hw c hc =>
    hr2.mem_iff.mpr ((mem_wordSetRunes words2 c).mpr ⟨w, hw, hc⟩)
  have hT : (findTopWeightAndPairs (makeWordSetR runes1 words1)).1
      = (findTopWeightAndPairs (makeWordSetR runes2 words2)).1 := by
    rcases top_word_attained hnd1 hlen1 hsub1 with h1 | ⟨wa, hwa, wb, hwb, hne, he⟩
    · rcases top_word_attained hnd2 hlen2 hsub2 with h2 | ⟨wa, hwa, wb, hwb, hne, he⟩
      · rw [h1, h2]
      · have hwa1 : wa ∈ words1 := hwp.mem_iff.mpr hwa
        have hwb1 : wb ∈ words1 := hwp.mem_iff.mpr hwb
        have hb := top_word_bound hnd1 hlen1 hsub1 hwa1 hwb1 hne
        have hjw : jointWeight runes1 wa wb = jointWeight runes2 wa wb :=
          jointWeight_perm hr12 wa wb
        omega
    · have hwa2 : wa ∈ words2 := hwp.mem_iff.mp hwa
      have hwb2 : wb ∈ words2 := hwp.mem_iff.mp hwb
      have hb2 := top_word_bound hnd2 hlen2 hsub2 hwa2 hwb2 hne
      have hjw : jointWeight runes1 wa wb = jointWeight runes2 wa wb :=
        jointWeight_perm hr12 wa wb
      rcases top_word_attained hnd2 hlen2 hsub2 with h2 | ⟨xa, hxa, xb, hxb, hne2, he2⟩
      · omega
      · have hxa1 : xa ∈ words1 := hwp.mem_iff.mpr hxa
        have hxb1 : xb ∈ words1 := hwp.mem_iff.mpr hxb
        have hb1 := top_word_bound hnd1 hlen1 hsub1 hxa1 hxb1 hne2
        have hjw2 : jointWeight runes1 xa xb = jointWeight runes2 xa xb :=
          jointWeight_perm hr12 xa xb
        omega
  refine ⟨hT, ?_⟩
  intro wa wb
  rw [pairIn_iff hnd1 hlen1 hsub1 wa wb, pairIn_iff hnd2 hlen2 hsub2 wa wb]
  constructor
  · rintro ⟨h1, h2, h3, h4⟩
    exact ⟨hwp.mem_iff.mp h1, hwp.mem_iff.mp h2, h3,
      by rw [← jointWeight_perm hr12, h4, hT]⟩
  · rintro ⟨h1, h2, h3, h4⟩
    exact ⟨hwp.mem_iff.mpr h1, hwp.mem_iff.mpr h2, h3,
      by rw [jointWeight_perm hr12, h4, hT]⟩

theorem claim_C9_witness :
    (cdfWords.Perm [fishWord, dogWord, catWord])
    ∧ (findTopWeightAndPairs (makeWordSetR (wordSetRunes cdfWords) cdfWords)).1
        = (findTopWeightAndPairs (makeWordSetR
            ((wordSetRunes [fishWord, dogWord, catWord]).reverse)
            [fishWord, dogWord, catWord])).1 :=
  ⟨by decide,
    (claim_C9 cdfWords [fishWord, dogWord, catWord] (wordSetRunes cdfWords)
      ((wordSetRunes [fishWord, dogWord, catWord]).reverse)
      (by decide) (by decide) (by decide) (by decide)).1⟩
